import Mathlib

/-!
# Verification of the FSM-Tinkerer automaton core

Shallow embedding of the two algorithm files of the repository:
`src/JS/NFAtoDFA.js` (subset construction and the set-based acceptance
evaluator) and `src/JS/DAFSA.js` (trie builder, acyclic minimizer and the
single-state acceptance evaluator).

Modelling conventions:
* A JavaScript value that is either a string or `undefined` is modelled by
  `Option String` (`none` = `undefined`).
* A JavaScript object is modelled as an insertion-ordered association list
  with unique keys; assigning to an existing key replaces the value in
  place, assigning to a fresh key appends.
* A JavaScript `Set` is modelled as an insertion-ordered duplicate-free
  list.
* An input string is modelled as the list of its characters, each a
  one-character symbol string, matching the `for (const ch of str)`
  iteration of the source.
* Property lookups `obj[v]` with a possibly-`undefined` subscript follow
  the JavaScript key coercion: `undefined` is coerced to the key
  `"undefined"`.
-/

namespace FSM

/-- A JavaScript value that is either a string or `undefined`. -/
abbrev StVal := Option String

/-- JavaScript property-key coercion: `undefined` used as an object key
becomes the string `"undefined"`. -/
def jsKey : StVal → String
  | none => "undefined"
  | some s => s

/-- `arr[0]` on a JavaScript array of state values: `undefined` when the
array is empty, otherwise the first element. -/
def jsHead : List StVal → StVal
  | [] => none
  | v :: _ => v

/-- Lookup in a JavaScript object modelled as an association list. -/
def getObj : List (String × α) → String → Option α
  | [], _ => none
  | (k', v) :: rest, k => if k' = k then some v else getObj rest k

/-- Assignment `obj[k] = v` on a JavaScript object: replaces the value in
place when the key exists, appends otherwise. -/
def setObj : List (String × α) → String → α → List (String × α)
  | [], k, v => [(k, v)]
  | (k', v') :: rest, k, v =>
      if k' = k then (k, v) :: rest else (k', v') :: setObj rest k v

/-- `set.add(x)` on a JavaScript `Set` modelled as an ordered
duplicate-free list: appends unless already present. -/
def addElem [DecidableEq α] (l : List α) (x : α) : List α :=
  if x ∈ l then l else l ++ [x]

/-- Add all elements of `xs` to the set `l` in order. -/
def addAll [DecidableEq α] (l xs : List α) : List α :=
  xs.foldl addElem l

/-- `[...new Set(arr)]`: deduplication keeping the first occurrence of
each element, as a JavaScript `Set` does. -/
def jsDedup [DecidableEq α] (l : List α) : List α :=
  addAll [] l

/-- The shared automaton representation of both source files:
`{states, alphabet, start, accept, transitions}`.  `transitions` maps a
state name to an object mapping a symbol to an array of destination
state values. -/
structure Automaton where
  states : List String
  alphabet : List String
  start : StVal
  accept : List String
  transitions : List (String × List (String × List StVal))
deriving DecidableEq, Repr

/-- The reasons reported by the two acceptance evaluators, one
constructor per reason string of the source. -/
inductive Reason where
  /-- NFAtoDFA.js line 174 / DAFSA.js line 152: `Symbol '…' not in alphabet`. -/
  | symbolNotInAlphabet (ch : String)
  /-- NFAtoDFA.js line 176: `No start state`. -/
  | noStartState
  /-- NFAtoDFA.js line 188: `Dead configuration`. -/
  | deadConfiguration
  /-- NFAtoDFA.js line 193 / DAFSA.js line 161: `Reached an accept state`. -/
  | reachedAcceptState
  /-- NFAtoDFA.js line 193: `No accept state reached`. -/
  | noAcceptStateReached
  /-- DAFSA.js line 157: `No transition`. -/
  | noTransition
  /-- DAFSA.js line 161: `Stopped in non-accepting state`. -/
  | stoppedNonAccepting
deriving DecidableEq, Repr

/-- The `{accepted, reason}` object returned by both evaluators. -/
structure Verdict where
  accepted : Bool
  reason : Reason
deriving DecidableEq, Repr

/-- `acceptSet.has(s)` where `acceptSet` is a set of strings and `s` a
possibly-`undefined` state value: `undefined` is never a member. -/
def acceptsMem (accept : List String) : StVal → Bool
  | none => false
  | some s => accept.contains s

/-- JavaScript falsiness of a start value: `undefined` and the empty
string are falsy. -/
def startFalsy : StVal → Bool
  | none => true
  | some s => s = ""

/-- `(((a.transitions || {})[s] || {})[ch]) || []` of NFAtoDFA.js
line 184: the destination array for state value `s` and symbol `ch`. -/
def movesOf (a : Automaton) (s : StVal) (ch : String) : List StVal :=
  (getObj ((getObj a.transitions (jsKey s)).getD []) ch).getD []

/-- One step of the set-based simulation (NFAtoDFA.js lines 182-187):
the union of the moves of every currently possible state. -/
def nfaStep (a : Automaton) (cur : List StVal) (ch : String) : List StVal :=
  cur.foldl (fun acc s => addAll acc (movesOf a s ch)) []

/-- The simulation loop of the set-based evaluator `accepts` of
NFAtoDFA.js (lines 181-193). -/
def acceptsNRun (a : Automaton) : List String → List StVal → Verdict
  | [], cur =>
      if cur.any (fun s => acceptsMem a.accept s) then
        ⟨true, .reachedAcceptState⟩
      else ⟨false, .noAcceptStateReached⟩
  | ch :: rest, cur =>
      let next := nfaStep a cur ch
      if next.isEmpty then ⟨false, .deadConfiguration⟩
      else acceptsNRun a rest next

/-- The set-based evaluator `accepts` of NFAtoDFA.js (lines 170-194):
alphabet check first, then falsy-start check, then the set simulation
from `{a.start}`. -/
def acceptsN (a : Automaton) (w : List String) : Verdict :=
  match w.find? (fun ch => !(a.alphabet.contains ch)) with
  | some ch => ⟨false, .symbolNotInAlphabet ch⟩
  | none =>
      if startFalsy a.start then ⟨false, .noStartState⟩
      else acceptsNRun a w [a.start]

/-- The walk loop of the single-state evaluator `accepts` of DAFSA.js
(lines 154-161); there is no start-state check in this evaluator. -/
def acceptsDRun (a : Automaton) : List String → StVal → Verdict
  | [], s =>
      if acceptsMem a.accept s then ⟨true, .reachedAcceptState⟩
      else ⟨false, .stoppedNonAccepting⟩
  | ch :: rest, s =>
      match movesOf a s ch with
      | [] => ⟨false, .noTransition⟩
      | v :: _ => acceptsDRun a rest v

/-- The single-state evaluator `accepts` of DAFSA.js (lines 149-162):
alphabet check first, then the walk from `dfa.start`. -/
def acceptsD (a : Automaton) (w : List String) : Verdict :=
  match w.find? (fun ch => !(a.alphabet.contains ch)) with
  | some ch => ⟨false, .symbolNotInAlphabet ch⟩
  | none => acceptsDRun a w a.start

/-- `arr.join(",")` on an array of strings. -/
def joinComma : List String → String
  | [] => ""
  | [x] => x
  | x :: y :: xs => x ++ "," ++ joinComma (y :: xs)

/-- Lexicographic comparison of character lists by code unit, the
comparison performed by a default JavaScript `sort()` on strings. -/
def charsLe : List Char → List Char → Bool
  | [], _ => true
  | _ :: _, [] => false
  | a :: as, b :: bs =>
      if a.toNat < b.toNat then true
      else if b.toNat < a.toNat then false
      else charsLe as bs

/-- The string comparison of a default JavaScript `sort()`. -/
def strLe (a b : String) : Bool :=
  charsLe a.data b.data

/-- `strLe` as a relation. -/
def strLeRel (a b : String) : Prop :=
  strLe a b = true

instance : DecidableRel strLeRel :=
  fun a b => inferInstanceAs (Decidable (strLe a b = true))

/-- `arr.sort()` on an array of strings: stable sort under the
lexicographic comparison. -/
def sortStrings (l : List String) : List String :=
  List.insertionSort strLeRel l

/-- The `keyOf` canonicalization of NFAtoDFA.js lines 201-205 applied to
a set of state values: `[...set].sort().join(",")`.  A default sort
places an `undefined` element after every string, and `join` renders it
as the empty string. -/
def keyOf (l : List StVal) : String :=
  joinComma (sortStrings (l.filterMap id) ++
    (l.filter (fun v => v.isNone)).map (fun _ => ""))

/-- Character-level counterpart of `joinComma`, used to reason about
its injectivity. -/
def joinCommaL : List (List Char) → List Char
  | [] => []
  | [x] => x
  | x :: y :: xs => x ++ ',' :: joinCommaL (y :: xs)

/-! ## Subset construction (NFAtoDFA.js lines 197-251) -/

/-- The value stored at `dfaTransitions[Skey][sym]` (line 229):
`T.size ? [Tkey] : []`. -/
def rowVal (nfa : Automaton) (S : List StVal) (sym : String) : List StVal :=
  let T := nfaStep nfa S sym
  if T.isEmpty then [] else [some (keyOf T)]

/-- The inner `for (const sym of alphabet)` loop of lines 221-235, as a
recursion over the remaining symbols.  It threads the worklist stack,
the `statesMap` and the transition row of the popped subset `S`. -/
def procSyms (nfa : Automaton) (S : List StVal) :
    List String → List (List StVal) → List (String × List StVal) →
    List (String × List StVal) →
    List (List StVal) × List (String × List StVal) × List (String × List StVal)
  | [], stack, m, row => (stack, m, row)
  | sym :: syms, stack, m, row =>
      let T := nfaStep nfa S sym
      let Tkey := keyOf T
      let row' := setObj row sym (if T.isEmpty then [] else [some Tkey])
      if !T.isEmpty && (getObj m Tkey).isNone then
        procSyms nfa S syms (T :: stack) (setObj m Tkey T) row'
      else
        procSyms nfa S syms stack m row'

/-- The `while (stack.length)` worklist loop of lines 216-236, with an
explicit fuel argument.  The fuel chosen in `nfaToDfa` is large enough
that it is never exhausted (`nfaToDfaLoop_measure` below). -/
def nfaToDfaLoop (nfa : Automaton) :
    Nat → List (List StVal) → List (String × List StVal) →
    List (String × List (String × List StVal)) →
    List (String × List StVal) × List (String × List (String × List StVal))
  | 0, _, m, tr => (m, tr)
  | _ + 1, [], m, tr => (m, tr)
  | fuel + 1, S :: rest, m, tr =>
      let Skey := keyOf S
      let row0 := (getObj tr Skey).getD []
      let r := procSyms nfa S nfa.alphabet rest m row0
      nfaToDfaLoop nfa fuel r.1 r.2.1 (setObj tr Skey r.2.2)

/-- The list of every destination value occurring in the transition
object of `nfa`, together with the start value: a universe containing
every element of every subset the construction can build. -/
def uList (nfa : Automaton) : List StVal :=
  nfa.start :: nfa.transitions.foldr
    (fun p acc => p.2.foldr (fun q acc2 => q.2 ++ acc2) acc) []

/-- Fuel that dominates the worklist: one more than the number of
distinct subsets of the destination universe. -/
def dfaFuel (nfa : Automaton) : Nat :=
  2 ^ (uList nfa).dedup.length + 1

/-- The final `statesMap` and `dfaTransitions` of the worklist, started
from the subset `{nfa.start}` with key `keyOf [nfa.start]`. -/
def dfaLoopRes (nfa : Automaton) :
    List (String × List StVal) × List (String × List (String × List StVal)) :=
  nfaToDfaLoop nfa (dfaFuel nfa) [[nfa.start]]
    [(keyOf [nfa.start], [nfa.start])] []

/-- `nfaToDfa` of NFAtoDFA.js lines 197-251: the subset construction.
The start subset is `{nfa.start}`; each popped subset is expanded over
the alphabet; a DFA state is accepting iff its subset meets the NFA
accept set. -/
def nfaToDfa (nfa : Automaton) : Automaton :=
  let m := (dfaLoopRes nfa).1
  { states := m.map (·.1)
    alphabet := nfa.alphabet
    start := some (keyOf [nfa.start])
    accept := (m.filter (fun p => p.2.any (fun s => acceptsMem nfa.accept s))).map (·.1)
    transitions := (dfaLoopRes nfa).2 }

/-- The key list of a JavaScript object model. -/
def objKeys (o : List (String × α)) : List String :=
  o.map (·.1)

/-- Shape of every entry of the worklist `statesMap`: the key is the
canonical key of the stored subset, which is a nonempty duplicate-free
list of destination-universe values. -/
def EntryOk (nfa : Automaton) (p : String × List StVal) : Prop :=
  p.1 = keyOf p.2 ∧ p.2.Nodup ∧ p.2 ≠ [] ∧ ∀ v ∈ p.2, v ∈ uList nfa

/-- Shape of a finished transition row of the subset `S`: keys form a
duplicate-free subset of the alphabet and every alphabet symbol maps to
`rowVal`. -/
def RowOk (nfa : Automaton) (S : List StVal) (row : List (String × List StVal)) : Prop :=
  (objKeys row).Nodup ∧ (∀ k ∈ objKeys row, k ∈ nfa.alphabet) ∧
    ∀ sym ∈ nfa.alphabet, getObj row sym = some (rowVal nfa S sym)

/-- Closure of the processed subset `S` under one step: every nonempty
successor subset is registered in the states map. -/
def RowClosed (nfa : Automaton) (S : List StVal)
    (m : List (String × List StVal)) : Prop :=
  ∀ sym ∈ nfa.alphabet, nfaStep nfa S sym ≠ [] →
    keyOf (nfaStep nfa S sym) ∈ objKeys m

/-- The worklist loop invariant of the subset construction. -/
def LoopInv (nfa : Automaton) (stack : List (List StVal))
    (m : List (String × List StVal))
    (tr : List (String × List (String × List StVal))) : Prop :=
  (objKeys m).Nodup ∧
  (∀ p ∈ m, EntryOk nfa p) ∧
  (∀ S ∈ stack, (keyOf S, S) ∈ m) ∧
  (stack.map keyOf).Nodup ∧
  (∀ S ∈ stack, getObj tr (keyOf S) = none) ∧
  (objKeys tr).Nodup ∧
  (∀ k ∈ objKeys tr, k ∈ objKeys m) ∧
  (∀ p ∈ m, p.2 ∈ stack ∨
    ∃ row, getObj tr p.1 = some row ∧ RowOk nfa p.2 row ∧ RowClosed nfa p.2 m)

/-- The bound on the number of `statesMap` entries: the number of
subsets of the destination universe. -/
def powBound (nfa : Automaton) : Nat :=
  2 ^ (uList nfa).dedup.length

/-- A state value that is a string free of commas; the subset keys of
such values are canonical (`keyOf_inj_stval`). -/
def valOk : StVal → Prop
  | none => False
  | some s => ',' ∉ s.data

instance : DecidablePred valOk := fun v =>
  match v with
  | none => isFalse (fun h => h)
  | some s => inferInstanceAs (Decidable (',' ∉ s.data))

/-- Referential integrity of an automaton: the start state is a member
of `states`, the accept set is contained in `states`, and every source
and destination of `transitions` is a member of `states`. -/
def Integrity (a : Automaton) : Prop :=
  (∃ s, a.start = some s ∧ s ∈ a.states) ∧
  (∀ x ∈ a.accept, x ∈ a.states) ∧
  (∀ p ∈ a.transitions, p.1 ∈ a.states ∧
    ∀ q ∈ p.2, ∀ v ∈ q.2, ∃ d, v = some d ∧ d ∈ a.states)

/-- A state value that is defined and denotes a member of the given
state list. -/
def DestOk (states : List String) (v : StVal) : Prop :=
  ∃ dst, v = some dst ∧ dst ∈ states

instance (states : List String) : DecidablePred (DestOk states) := fun v =>
  match v with
  | none => isFalse (by rintro ⟨d, h, -⟩; exact Option.noConfusion h)
  | some s => decidable_of_iff (s ∈ states)
      ⟨fun h => ⟨s, rfl, h⟩, by
        rintro ⟨d, hd, h⟩
        obtain rfl : s = d := by injection hd
        exact h⟩

/-! ## Decimal rendering of numeric state identifiers

DAFSA.js line 44 allocates trie node names with `` `q${nextId++}` ``.
The template literal renders the counter in decimal; `natToStr` below is
that standard decimal rendering, defined by structural recursion so that
its injectivity is provable. -/

/-- The decimal digit characters. -/
def dchar : Nat → Char
  | 0 => '0' | 1 => '1' | 2 => '2' | 3 => '3' | 4 => '4'
  | 5 => '5' | 6 => '6' | 7 => '7' | 8 => '8' | _ => '9'

/-- Digit-list writer with a structural fuel argument, so that the
kernel can evaluate it; `digs` supplies sufficient fuel. -/
def digsF : Nat → Nat → List Char
  | 0, _ => []
  | fuel + 1, n =>
      if n < 10 then [dchar n] else digsF fuel (n / 10) ++ [dchar (n % 10)]

/-- The big-endian decimal digit list of a natural number (`[ '0' ]` for
zero handled in `natToStr`). -/
def digs (n : Nat) : List Char :=
  digsF (n + 1) n

/-- Standard decimal rendering of a natural number, the behaviour of
JavaScript template-literal interpolation of the node counter. -/
def natToStr (n : Nat) : String :=
  ⟨digs n⟩

/-- The numeric value of a decimal digit character, inverse of
`dchar`. -/
def dval : Char → Nat
  | '0' => 0 | '1' => 1 | '2' => 2 | '3' => 3 | '4' => 4
  | '5' => 5 | '6' => 6 | '7' => 7 | '8' => 8 | _ => 9

/-- The number denoted by a big-endian digit-character list. -/
def digsVal (l : List Char) : Nat :=
  l.foldl (fun a c => 10 * a + dval c) 0

/-! ## Trie builder (DAFSA.js lines 26-83) -/

/-- A trie node of DAFSA.js line 46: `{edges: Map(symbol -> childId),
final: bool}` (the `id` field of the source duplicates the map key and
is dropped). -/
structure TrieNode where
  edges : List (String × String)
  final : Bool
deriving DecidableEq, Repr

/-- `ensureNode(id)` of DAFSA.js lines 48-51: insert an empty
non-final node unless the id is already present. -/
def ensureN (nodes : List (String × TrieNode)) (id : String) :
    List (String × TrieNode) :=
  if (getObj nodes id).isSome then nodes else nodes ++ [(id, ⟨[], false⟩)]

/-- One iteration of the `for (const ch of w)` insertion loop of
DAFSA.js lines 58-64, threading `(nextId, nodes, v)`. -/
def insChar (acc : Nat × List (String × TrieNode) × String) (ch : String) :
    Nat × List (String × TrieNode) × String :=
  let n := acc.1
  let nodes1 := ensureN acc.2.1 acc.2.2
  let node := (getObj nodes1 acc.2.2).getD ⟨[], false⟩
  match getObj node.edges ch with
  | some nx => (n, ensureN nodes1 nx, nx)
  | none =>
      let nx := "q" ++ natToStr n
      let nodes2 := setObj nodes1 acc.2.2 ⟨node.edges ++ [(ch, nx)], node.final⟩
      (n + 1, ensureN nodes2 nx, nx)

/-- Insertion of one word (DAFSA.js lines 56-66): walk/extend the trie
along the word from the root `"q0"`, then mark the final node. -/
def insertWord (st : Nat × List (String × TrieNode)) (w : List String) :
    Nat × List (String × TrieNode) :=
  let r := w.foldl insChar (st.1, st.2, "q0")
  let nd := (getObj r.2.1 r.2.2).getD ⟨[], false⟩
  (r.1, setObj r.2.1 r.2.2 ⟨nd.edges, true⟩)

/-- The trie node name allocated for counter value `n`. -/
def qid (n : Nat) : String :=
  "q" ++ natToStr n

/-- Walking a word through the trie node map from a node. -/
def follow (nodes : List (String × TrieNode)) : String → List String → Option String
  | v, [] => some v
  | v, ch :: rest =>
      match getObj nodes v with
      | none => none
      | some nd =>
          match getObj nd.edges ch with
          | none => none
          | some nx => follow nodes nx rest

/-- The final flag of a node. -/
def finalAt (nodes : List (String × TrieNode)) (v : String) : Bool :=
  ((getObj nodes v).getD ⟨[], false⟩).final

/-- Structural well-formedness of the trie state: unique allocated
node names below the counter, a root, unique edge labels and edge
targets that exist. -/
def TrieStru (st : Nat × List (String × TrieNode)) : Prop :=
  (objKeys st.2).Nodup ∧
  (getObj st.2 (qid 0)).isSome ∧
  (∀ p ∈ st.2, ∃ i, i < st.1 ∧ p.1 = qid i) ∧
  (∀ p ∈ st.2, (objKeys p.2.edges).Nodup ∧
    ∀ e ∈ p.2.edges, (getObj st.2 e.2).isSome)

/-- One node map extends another: every node survives with the same
final flag and at least its old edges. -/
def ExtendsE (nodes nodes' : List (String × TrieNode)) : Prop :=
  ∀ v nd, getObj nodes v = some nd → ∃ nd', getObj nodes' v = some nd' ∧
    nd'.final = nd.final ∧
    ∀ ch nx, getObj nd.edges ch = some nx → getObj nd'.edges ch = some nx

/-- Tree-shapedness of the trie: every node is reached from the root by
at most one word. -/
def TrieInj (nodes : List (String × TrieNode)) : Prop :=
  ∀ w w' v, follow nodes (qid 0) w = some v → follow nodes (qid 0) w' = some v →
    w = w'

/-- Every inserted word reaches a final node. -/
def FinA (nodes : List (String × TrieNode)) (ws : List (List String)) : Prop :=
  ∀ w ∈ ws, ∃ v, follow nodes (qid 0) w = some v ∧ finalAt nodes v = true

/-- Only inserted words reach final nodes. -/
def FinB (nodes : List (String × TrieNode)) (ws : List (List String)) : Prop :=
  ∀ w v, follow nodes (qid 0) w = some v → finalAt nodes v = true → w ∈ ws

/-- The language description consumed by the trie builder:
`{alphabet, accept}` where `accept` is the list of member words, each a
list of symbols. -/
structure LangDesc where
  alphabet : List String
  accept : List (List String)
deriving DecidableEq, Repr

/-- The trie state after inserting every word: root `"q0"` allocated
first, counter at 1. -/
def trieOf (lang : LangDesc) : Nat × List (String × TrieNode) :=
  lang.accept.foldl insertWord (1, [("q0", ⟨[], false⟩)])

/-- `buildTrieDFA` of DAFSA.js lines 26-83.  The assertions of the
source throw; they are modelled by `Except.error` with the assertion
message.  On success the trie is converted to the automaton JSON:
one transition entry per node, each edge becoming a one-element
destination array. -/
def buildTrieDFA (lang : LangDesc) : Except String Automaton :=
  if lang.alphabet.length = 0 then
    .error "alphabet must be a non-empty array"
  else
    match lang.accept.find? (fun w => w.any (fun ch => !(lang.alphabet.contains ch))) with
    | some _ => .error "string contains symbol not in alphabet"
    | none =>
        let nodes := (trieOf lang).2
        .ok
          { alphabet := jsDedup lang.alphabet
            states := nodes.map (·.1)
            start := some "q0"
            accept := (nodes.filter (fun p => p.2.final)).map (·.1)
            transitions := nodes.map (fun p =>
              (p.1, p.2.edges.map (fun e => (e.1, [some e.2])))) }

/-! ## Acyclic minimizer (DAFSA.js lines 91-146) -/

/-- The recursive signature computation `sig` of DAFSA.js lines 97-111,
with an explicit fuel argument in place of the unbounded recursion of
the source (the memoization of the source only caches the values of
this pure recursion).  `sig(s)` sorts the outgoing symbols, renders
each as `sym + ">" + sig(dest)`, joins with `","` and prefixes the
acceptance flag and `"|"`. -/
def sigF (d : Automaton) : Nat → StVal → String
  | 0, _ => ""
  | fuel + 1, s =>
      let edges := (getObj d.transitions (jsKey s)).getD []
      let syms := sortStrings (edges.map (·.1))
      let parts := syms.map (fun a =>
        a ++ ">" ++ sigF d fuel (jsHead ((getObj edges a).getD [])))
      (if acceptsMem d.accept s then "1" else "0") ++ "|" ++ joinComma parts

/-- The fuel used for the signature recursion: on any automaton whose
transition graph is acyclic with destinations inside `states`, the
recursion depth is at most the number of distinct states, so this fuel
reproduces the source exactly (`sigF_stable` below). -/
def sigFuel (d : Automaton) : Nat :=
  d.states.length + 1

/-- The signature of a state value of `d`. -/
def sigOf (d : Automaton) : StVal → String :=
  sigF d (sigFuel d)

/-- The `rep` map of DAFSA.js lines 95 and 118-122: the first state of
`d.states` bearing each signature, in order of first appearance. -/
def repList (d : Automaton) : List (String × String) :=
  d.states.foldl (fun r s =>
    if (getObj r (sigOf d (some s))).isSome then r
    else r ++ [(sigOf d (some s), s)]) []

/-- The `mapToRep` map of DAFSA.js lines 117-122: every state of
`d.states` mapped to the representative of its signature. -/
def mapToRepL (d : Automaton) : List (String × String) :=
  d.states.foldl (fun m s =>
    setObj m s ((getObj (repList d) (sigOf d (some s))).getD "")) []

/-- `mapToRep.get(v)` on a possibly-`undefined` value: a `Map` lookup
misses both on `undefined` and on any string that is not a state. -/
def getRep (d : Automaton) : StVal → StVal
  | none => none
  | some s => getObj (mapToRepL d) s

/-- `minimizeAcyclicDFA` of DAFSA.js lines 91-146: merge states with
identical signatures, keeping the first-seen representative, and remap
the start, accept set and every transition destination through the
representative map.  `newTransitions[s][a] = [mapToRep.get(edges[a][0])]`
(line 135): an empty source entry or a dangling destination yields a
`Map` miss, i.e. an `undefined` destination. -/
def minimizeAcyclicDFA (d : Automaton) : Automaton :=
  let newStates := (repList d).map (·.2)
  { alphabet := d.alphabet
    states := newStates
    start := getRep d d.start
    accept := newStates.filter (fun s => d.accept.contains s)
    transitions := newStates.foldl (fun tr s =>
      setObj tr s (((getObj d.transitions s).getD []).map (fun e =>
        (e.1, [getRep d (jsHead e.2)])))) [] }

/-! ## Validator (NFAtoDFA.js load handler, lines 254-280) -/

/-- A parsed JSON value, as far as the load handler inspects one. -/
inductive JVal where
  | jstr : String → JVal
  | jnum : Int → JVal
  | jarr : List JVal → JVal
  | jobj : List (String × JVal) → JVal

/-- A raw parsed definition: the top-level JSON object. -/
abbrev RawDef := List (String × JVal)

/-- The three failure classes of the load handler, one constructor per
`throw` site of NFAtoDFA.js lines 263-269. -/
inductive LoadError where
  /-- line 265: `Missing key '…'`. -/
  | missingKey (k : String)
  /-- line 268: `states, alphabet, and accept must be arrays`. -/
  | typeMismatch
  /-- line 269: `Epsilon transitions are not supported.` — the
  `UnsupportedFeature` class of the specification. -/
  | unsupportedFeature
deriving DecidableEq, Repr

/-- The required top-level keys, in the order checked (line 263). -/
def requiredKeys : List String :=
  ["states", "alphabet", "start", "accept", "transitions"]

/-- `Array.isArray` on a looked-up field. -/
def isJsArray : Option JVal → Bool
  | some (.jarr _) => true
  | _ => false

/-- The validation sequence of the load handler (NFAtoDFA.js lines
263-269): first the required-key presence loop, then the array-type
check on `states`, `alphabet` and `accept`, then the epsilon-key
rejection. -/
def validateRaw (obj : RawDef) : Except LoadError RawDef :=
  match requiredKeys.find? (fun k => (getObj obj k).isNone) with
  | some k => .error (.missingKey k)
  | none =>
      if !(isJsArray (getObj obj "states")) ||
         !(isJsArray (getObj obj "alphabet")) ||
         !(isJsArray (getObj obj "accept")) then
        .error .typeMismatch
      else if (getObj obj "epsilon").isSome then
        .error .unsupportedFeature
      else .ok obj

/-- The effect of one click of the load button on the `automaton`
variable (NFAtoDFA.js lines 254-280): a successful validation installs
the parsed object, a failed one leaves the variable untouched. -/
def loadStep (current : Option RawDef) (obj : RawDef) : Option RawDef :=
  match validateRaw obj with
  | .ok a => some a
  | .error _ => current

/-! ## Concrete instances used by the theorems below -/

/-- The NFA of the specification's scenario (section 8):
`{states:[q1,q2], alphabet:[a,b], start:q1, accept:[q2],
transitions:{q1:{a:[q1,q2], b:[q1]}, q2:{b:[q1]}}}`. -/
def exScenario : Automaton :=
  { states := ["q1", "q2"], alphabet := ["a", "b"], start := some "q1",
    accept := ["q2"],
    transitions := [("q1", [("a", [some "q1", some "q2"]), ("b", [some "q1"])]),
                    ("q2", [("b", [some "q1"])])] }

/-- An epsilon-free NFA with a state named `"a,b"`: the subset `{a,b}`
and the subset `{"a,b"}` both canonicalize to the key `"a,b"`. -/
def exComma : Automaton :=
  { states := ["a", "b", "a,b"], alphabet := ["x", "y"], start := some "a",
    accept := ["a,b"],
    transitions := [("a", [("x", [some "a", some "b"]), ("y", [some "a,b"])])] }

/-- An acyclic DFA on which the flat signature strings collide:
`sig(x) = "0|a>0|b>1|,c>1|" = sig(y)` although the right language of `x`
is `{ab, ac}` and that of `y` is `{ab, c}`. -/
def exSigCollide : Automaton :=
  { states := ["s", "x", "y", "z", "z1", "f"],
    alphabet := ["a", "b", "c", "d", "e"],
    start := some "s", accept := ["f"],
    transitions := [("s", [("d", [some "x"]), ("e", [some "y"])]),
                    ("x", [("a", [some "z"])]),
                    ("y", [("a", [some "z1"]), ("c", [some "f"])]),
                    ("z", [("b", [some "f"]), ("c", [some "f"])]),
                    ("z1", [("b", [some "f"])])] }

/-- An acyclic deterministic automaton on which minimization is not
idempotent: the empty entry of `r1` makes `sig` recurse through the
`undefined` key, which the first pass resolves to the state named
`"undefined"` and the second pass (after that state is merged away) to
the empty object, so `r1` and `r2` collide only in the second pass. -/
def exIdem : Automaton :=
  { states := ["u2", "undefined", "f", "t", "r1", "r2"],
    alphabet := ["a", "c"], start := some "r1", accept := ["f"],
    transitions := [("u2", [("c", [some "f"])]),
                    ("undefined", [("c", [some "f"])]),
                    ("f", []), ("t", []),
                    ("r1", [("a", [])]),
                    ("r2", [("a", [some "t"])])] }

/-- A deterministic automaton whose start state is the empty string:
defined, but falsy in JavaScript. -/
def exEmptyStart : Automaton :=
  { states := [""], alphabet := [], start := some "", accept := [""],
    transitions := [] }

/-- A well-formed acyclic deterministic automaton with an empty
transition entry: `edges["a"][0]` is `undefined` during minimization. -/
def exEmptyEntry : Automaton :=
  { states := ["s"], alphabet := ["a"], start := some "s", accept := [],
    transitions := [("s", [("a", [])])] }

/-- The language description of the specification's minimal-state-count
scenario: alphabet `{a,b}`, words `{"", "a", "ab", "aabb"}`. -/
def exLang : LangDesc :=
  { alphabet := ["a", "b"],
    accept := [[], ["a"], ["a", "b"], ["a", "a", "b", "b"]] }

/-- The number of `>` characters in a string: each signature part
`sym + ">" + sig(child)` contributes one more than its child signature,
so this count strictly decreases from a signature to the signatures of
its children. -/
def gtCount (s : String) : Nat :=
  s.data.count '>'

/-- A topological rank witnessing the acyclicity of `exSigCollide`. -/
def exRank (st : String) : Nat :=
  if st = "s" then 3 else if st = "x" then 2 else if st = "y" then 2
  else if st = "z" then 1 else if st = "z1" then 1 else 0

/-- A topological rank for the minimized automaton: the number of
representative states whose original signature has strictly fewer `>`
characters.  It is bounded by the number of new states and strictly
decreases along the minimized transitions. -/
def rankM (d : Automaton) (st : String) : Nat :=
  (((repList d).map (·.2)).filter
    (fun t => gtCount (sigOf d (some t)) < gtCount (sigOf d (some st)))).length

/-! ## Basic lemmas on the JavaScript object and set model -/

theorem getObj_nil (k : String) : getObj ([] : List (String × α)) k = none := rfl

theorem getObj_cons (k' : String) (v : α) (rest : List (String × α)) (k : String) :
    getObj ((k', v) :: rest) k = if k' = k then some v else getObj rest k := rfl

theorem getObj_append_left {o₁ : List (String × α)} (o₂ : List (String × α)) {k : String}
    (h : (getObj o₁ k).isSome) : getObj (o₁ ++ o₂) k = getObj o₁ k := by
  induction o₁ with
  | nil => simp [getObj] at h
  | cons p rest ih =>
      cases p with
      | mk k' v =>
          by_cases hk : k' = k
          · simp [getObj, hk]
          · simp only [getObj, if_neg hk] at h ⊢
            exact ih h

theorem getObj_append_right {o₁ : List (String × α)} (o₂ : List (String × α)) {k : String}
    (h : getObj o₁ k = none) : getObj (o₁ ++ o₂) k = getObj o₂ k := by
  induction o₁ with
  | nil => simp [getObj]
  | cons p rest ih =>
      cases p with
      | mk k' v =>
          by_cases hk : k' = k
          · simp [getObj, hk] at h
          · simp only [getObj, if_neg hk] at h ⊢
            exact ih h

theorem getObj_isSome_iff {o : List (String × α)} {k : String} :
    (getObj o k).isSome ↔ k ∈ o.map (·.1) := by
  induction o with
  | nil => simp [getObj]
  | cons p rest ih =>
      cases p with
      | mk k' v =>
          by_cases hk : k' = k
          · simp [getObj, hk]
          · simp only [getObj, if_neg hk, List.map_cons, List.mem_cons]
            rw [ih]
            constructor
            · exact fun h => Or.inr h
            · rintro (h | h)
              · exact absurd h.symm hk
              · exact h

theorem getObj_eq_none_iff {o : List (String × α)} {k : String} :
    getObj o k = none ↔ k ∉ o.map (·.1) := by
  rw [← getObj_isSome_iff]
  cases getObj o k <;> simp

theorem getObj_mem {o : List (String × α)} {k : String} {v : α}
    (h : getObj o k = some v) : (k, v) ∈ o := by
  induction o with
  | nil => simp [getObj] at h
  | cons p rest ih =>
      cases p with
      | mk k' v' =>
          by_cases hk : k' = k
          · subst hk
            simp [getObj] at h
            simp [h]
          · simp only [getObj, if_neg hk] at h
            exact List.mem_cons_of_mem _ (ih h)

theorem getObj_of_mem_nodup {o : List (String × α)} {k : String} {v : α}
    (hn : (o.map (·.1)).Nodup) (h : (k, v) ∈ o) : getObj o k = some v := by
  induction o with
  | nil => simp at h
  | cons p rest ih =>
      cases p with
      | mk k' v' =>
          simp only [List.map_cons, List.nodup_cons] at hn
          rcases List.mem_cons.1 h with h | h
          · cases h
            simp [getObj]
          · have hk : k' ≠ k := by
              intro hk
              subst hk
              exact hn.1 (List.mem_map.2 ⟨(k', v), h, rfl⟩)
            simp only [getObj, if_neg hk]
            exact ih hn.2 h

theorem getObj_setObj_self (o : List (String × α)) (k : String) (v : α) :
    getObj (setObj o k v) k = some v := by
  induction o with
  | nil => simp [setObj, getObj]
  | cons p rest ih =>
      cases p with
      | mk k' v' =>
          by_cases hk : k' = k
          · simp [setObj, hk, getObj]
          · simp [setObj, hk, getObj, ih]

theorem getObj_setObj_ne (o : List (String × α)) {k k' : String} (v : α)
    (h : k ≠ k') : getObj (setObj o k v) k' = getObj o k' := by
  induction o with
  | nil => simp [setObj, getObj, h]
  | cons p rest ih =>
      cases p with
      | mk k'' v'' =>
          by_cases hk : k'' = k
          · subst hk
            simp [setObj, getObj, h]
          · simp only [setObj, if_neg hk, getObj]
            by_cases hk' : k'' = k'
            · simp [hk']
            · simp [hk', ih]

theorem setObj_keys_of_mem {o : List (String × α)} {k : String} (v : α)
    (h : k ∈ o.map (·.1)) : (setObj o k v).map (·.1) = o.map (·.1) := by
  induction o with
  | nil => simp at h
  | cons p rest ih =>
      cases p with
      | mk k' v' =>
          by_cases hk : k' = k
          · simp [setObj, hk]
          · simp only [List.map_cons, List.mem_cons] at h
            rcases h with h | h
            · exact absurd h.symm hk
            · simp [setObj, hk, ih h]

theorem setObj_of_not_mem {o : List (String × α)} {k : String} (v : α)
    (h : k ∉ o.map (·.1)) : setObj o k v = o ++ [(k, v)] := by
  induction o with
  | nil => simp [setObj]
  | cons p rest ih =>
      cases p with
      | mk k' v' =>
          simp only [List.map_cons, List.mem_cons] at h
          push_neg at h
          have hne : ¬ k' = k := fun hk => h.1 hk.symm
          simp [setObj, hne, ih h.2]

theorem setObj_keys_nodup {o : List (String × α)} {k : String} (v : α)
    (hn : (o.map (·.1)).Nodup) : ((setObj o k v).map (·.1)).Nodup := by
  by_cases h : k ∈ o.map (·.1)
  · rw [setObj_keys_of_mem v h]; exact hn
  · rw [setObj_of_not_mem v h]
    simp only [List.map_append, List.map_cons, List.map_nil]
    rw [List.nodup_append]
    exact ⟨hn, List.nodup_singleton _, by simpa using fun hk => h hk⟩

theorem mem_addElem [DecidableEq α] {l : List α} {x y : α} :
    y ∈ addElem l x ↔ y ∈ l ∨ y = x := by
  unfold addElem
  by_cases h : x ∈ l
  · simp only [if_pos h]
    constructor
    · exact fun hy => Or.inl hy
    · rintro (hy | rfl) <;> [exact hy; exact h]
  · simp [if_neg h, or_comm]

theorem addElem_nodup [DecidableEq α] {l : List α} (x : α) (hn : l.Nodup) :
    (addElem l x).Nodup := by
  unfold addElem
  by_cases h : x ∈ l
  · simpa [h]
  · simp [h, List.nodup_append, hn]

theorem mem_addAll [DecidableEq α] {l xs : List α} {y : α} :
    y ∈ addAll l xs ↔ y ∈ l ∨ y ∈ xs := by
  induction xs generalizing l with
  | nil => simp [addAll]
  | cons x xs ih =>
      simp only [addAll, List.foldl_cons] at ih ⊢
      rw [ih, mem_addElem]
      simp [or_assoc]

theorem addAll_nodup [DecidableEq α] {l xs : List α} (hn : l.Nodup) :
    (addAll l xs).Nodup := by
  induction xs generalizing l with
  | nil => simpa [addAll]
  | cons x xs ih =>
      simp only [addAll, List.foldl_cons]
      exact ih (addElem_nodup x hn)

theorem mem_nfaStep {a : Automaton} {cur : List StVal} {ch : String} {v : StVal} :
    v ∈ nfaStep a cur ch ↔ ∃ s ∈ cur, v ∈ movesOf a s ch := by
  unfold nfaStep
  suffices h : ∀ (init : List StVal),
      v ∈ cur.foldl (fun acc s => addAll acc (movesOf a s ch)) init ↔
        v ∈ init ∨ ∃ s ∈ cur, v ∈ movesOf a s ch by
    simpa using h []
  induction cur with
  | nil => simp
  | cons s rest ih =>
      intro init
      simp only [List.foldl_cons]
      rw [ih, mem_addAll]
      simp only [List.mem_cons]
      constructor
      · rintro ((h | h) | ⟨t, ht, hv⟩)
        · exact Or.inl h
        · exact Or.inr ⟨s, Or.inl rfl, h⟩
        · exact Or.inr ⟨t, Or.inr ht, hv⟩
      · rintro (h | ⟨t, (rfl | ht), hv⟩)
        · exact Or.inl (Or.inl h)
        · exact Or.inl (Or.inr hv)
        · exact Or.inr ⟨t, ht, hv⟩

theorem nfaStep_nodup (a : Automaton) (cur : List StVal) (ch : String) :
    (nfaStep a cur ch).Nodup := by
  unfold nfaStep
  suffices h : ∀ (init : List StVal), init.Nodup →
      (cur.foldl (fun acc s => addAll acc (movesOf a s ch)) init).Nodup by
    exact h [] (List.nodup_nil)
  induction cur with
  | nil => intro init h; simpa
  | cons s rest ih =>
      intro init h
      simp only [List.foldl_cons]
      exact ih _ (addAll_nodup h)

/-! ## C7: the alphabet check precedes any simulation -/

/-- **C7** (confirmed).  Both acceptance evaluators check the input
string against the alphabet before any transition simulation: whenever
some character of the input is missing from the automaton's alphabet,
both evaluators reject with `SymbolNotInAlphabet` naming the first
offending character — every character before it is in the alphabet —
regardless of the automaton's structure. -/
theorem C7_alphabet_check_first (a : Automaton) (w : List String)
    (h : ∃ ch ∈ w, ¬ (a.alphabet.contains ch = true)) :
    ∃ c w₁ w₂, w = w₁ ++ c :: w₂ ∧ (∀ ch ∈ w₁, a.alphabet.contains ch = true) ∧
      ¬ (a.alphabet.contains c = true) ∧
      acceptsN a w = ⟨false, .symbolNotInAlphabet c⟩ ∧
      acceptsD a w = ⟨false, .symbolNotInAlphabet c⟩ := by
  obtain ⟨ch, hmem, hch⟩ := h
  have hfind : (w.find? (fun ch => !(a.alphabet.contains ch))).isSome := by
    rw [List.find?_isSome]
    exact ⟨ch, hmem, by simpa using hch⟩
  obtain ⟨c, hc⟩ := Option.isSome_iff_exists.1 hfind
  obtain ⟨hpc, w₁, w₂, hsplit, hbefore⟩ := List.find?_eq_some.1 hc
  refine ⟨c, w₁, w₂, hsplit, ?_, ?_, ?_, ?_⟩
  · intro x hx
    have := hbefore x hx
    simpa using this
  · simpa using hpc
  · simp only [acceptsN]
    rw [hc]
  · simp only [acceptsD]
    rw [hc]

/-- Witness for C7 at the scenario of the specification: testing the
string `"c"` against alphabet `{a,b}` rejects with
`SymbolNotInAlphabet`. -/
theorem C7_alphabet_check_first_witness :
    (∃ ch ∈ ["c"], ¬ (exScenario.alphabet.contains ch = true)) ∧
      ∃ c w₁ w₂, (["c"] : List String) = w₁ ++ c :: w₂ ∧
        (∀ ch ∈ w₁, exScenario.alphabet.contains ch = true) ∧
        ¬ (exScenario.alphabet.contains c = true) ∧
        acceptsN exScenario ["c"] = ⟨false, .symbolNotInAlphabet c⟩ ∧
        acceptsD exScenario ["c"] = ⟨false, .symbolNotInAlphabet c⟩ :=
  ⟨⟨"c", by decide, by decide⟩,
    C7_alphabet_check_first exScenario ["c"] ⟨"c", by decide, by decide⟩⟩

/-! ## C5: epsilon rejection during loading -/

/-- **C5** (amended).  For every raw parsed definition that contains
all five required keys, whose `states`, `alphabet` and `accept` fields
are arrays, and which contains an `epsilon` key, validation fails with
the `UnsupportedFeature` error and a load starting from an empty
current automaton leaves no automaton installed. -/
theorem C5_epsilon_rejected_amended (obj : RawDef)
    (hkeys : ∀ k ∈ requiredKeys, (getObj obj k).isSome)
    (harr : isJsArray (getObj obj "states") ∧ isJsArray (getObj obj "alphabet") ∧
      isJsArray (getObj obj "accept"))
    (heps : (getObj obj "epsilon").isSome) :
    validateRaw obj = .error .unsupportedFeature ∧ loadStep none obj = none := by
  have hfind : requiredKeys.find? (fun k => (getObj obj k).isNone) = none := by
    rw [List.find?_eq_none]
    intro k hk
    have := hkeys k hk
    cases h0 : getObj obj k <;> simp_all
  have hval : validateRaw obj = .error .unsupportedFeature := by
    unfold validateRaw
    rw [hfind]
    simp [harr.1, harr.2.1, harr.2.2, heps]
  exact ⟨hval, by simp [loadStep, hval]⟩

/-- Witness for C5: a complete definition with an `epsilon` key fails
with `UnsupportedFeature` and installs nothing. -/
theorem C5_epsilon_rejected_witness :
    validateRaw [("states", .jarr []), ("alphabet", .jarr []),
      ("start", .jstr "q0"), ("accept", .jarr []), ("transitions", .jobj []),
      ("epsilon", .jobj [])] = .error .unsupportedFeature ∧
    loadStep none [("states", .jarr []), ("alphabet", .jarr []),
      ("start", .jstr "q0"), ("accept", .jarr []), ("transitions", .jobj []),
      ("epsilon", .jobj [])] = none :=
  C5_epsilon_rejected_amended _ (by decide) ⟨by rfl, by rfl, by rfl⟩ (by rfl)

/-- Counterexample to C5 as stated: a raw definition consisting of an
`epsilon` key alone fails with `Missing key 'states'`, not with
`UnsupportedFeature`. -/
theorem C5_counterexample :
    validateRaw [("epsilon", .jobj [])] = .error (.missingKey "states") ∧
      validateRaw [("epsilon", .jobj [])] ≠ .error .unsupportedFeature := by
  constructor
  · rfl
  · intro h
    have h2 := (rfl : validateRaw [("epsilon", .jobj [])] =
      .error (.missingKey "states")).symm.trans h
    injection h2 with h3
    exact LoadError.noConfusion h3

/-! ## C9: agreement of the two evaluators on deterministic automata -/

/-- A deterministic transition table: every destination array has at
most one element. -/
def Deterministic (a : Automaton) : Prop :=
  ∀ p ∈ a.transitions, ∀ q ∈ p.2, (q.2 : List StVal).length ≤ 1

theorem movesOf_length_le_one {a : Automaton} (hdet : Deterministic a)
    (s : StVal) (ch : String) : (movesOf a s ch).length ≤ 1 := by
  unfold movesOf
  cases htr : getObj a.transitions (jsKey s) with
  | none => simp [getObj]
  | some e =>
      simp only [Option.getD_some]
      cases hrow : getObj e ch with
      | none => simp [hrow]
      | some ds =>
          simp only [Option.getD_some]
          exact hdet _ (getObj_mem htr) _ (getObj_mem hrow)

theorem nfaStep_singleton (a : Automaton) (v : StVal) (ch : String)
    (h : (movesOf a v ch).length ≤ 1) :
    nfaStep a [v] ch = movesOf a v ch := by
  unfold nfaStep
  simp only [List.foldl_cons, List.foldl_nil]
  match hm : movesOf a v ch, h with
  | [], _ => rfl
  | [x], _ => rfl

theorem acceptsRun_agree {a : Automaton} (hdet : Deterministic a) :
    ∀ (w : List String) (v : StVal),
      (acceptsNRun a w [v]).accepted = (acceptsDRun a w v).accepted := by
  intro w
  induction w with
  | nil =>
      intro v
      simp only [acceptsNRun, acceptsDRun, List.any_cons, List.any_nil, Bool.or_false]
      by_cases h : acceptsMem a.accept v = true <;> simp [h]
  | cons ch rest ih =>
      intro v
      simp only [acceptsNRun, acceptsDRun]
      rw [nfaStep_singleton a v ch (movesOf_length_le_one hdet v ch)]
      cases hm : movesOf a v ch with
      | nil => simp
      | cons x xs =>
          have hx : xs = [] := by
            have hlen := movesOf_length_le_one hdet v ch
            rw [hm] at hlen
            simp only [List.length_cons] at hlen
            exact List.length_eq_zero.1 (by omega)
          subst hx
          simpa using ih x

/-- **C9** (amended).  For every automaton whose start state is defined
*and non-empty* and in which every transition entry has at most one
destination, the set-based evaluator of NFAtoDFA.js and the
single-state evaluator of DAFSA.js return the same `accepted` boolean
on every input. -/
theorem C9_evaluator_agreement_amended (a : Automaton) (s₀ : String)
    (hstart : a.start = some s₀) (hne : s₀ ≠ "") (hdet : Deterministic a)
    (w : List String) :
    (acceptsN a w).accepted = (acceptsD a w).accepted := by
  unfold acceptsN acceptsD
  cases hf : w.find? (fun ch => !(a.alphabet.contains ch)) with
  | some c => rfl
  | none =>
      have hfalsy : startFalsy a.start = false := by
        rw [hstart]
        simpa [startFalsy] using hne
      rw [hfalsy]
      simp only [Bool.false_eq_true, if_false]
      rw [hstart]
      exact acceptsRun_agree hdet w (some s₀)

/-- Witness for C9 at a concrete deterministic automaton and input. -/
theorem C9_evaluator_agreement_witness :
    exSigCollide.start = some "s" ∧ ("s" : String) ≠ "" ∧
      Deterministic exSigCollide ∧
      (acceptsN exSigCollide ["e", "c"]).accepted =
        (acceptsD exSigCollide ["e", "c"]).accepted :=
  ⟨rfl, by decide, by unfold Deterministic; decide,
    C9_evaluator_agreement_amended exSigCollide "s" rfl (by decide)
      (by unfold Deterministic; decide) _⟩

/-! ## Properties of the canonical subset key `keyOf` -/

theorem joinComma_data (l : List String) :
    (joinComma l).data = joinCommaL (l.map String.data) := by
  match l with
  | [] => rfl
  | [x] => rfl
  | x :: y :: xs =>
      show ((x ++ "," ++ joinComma (y :: xs))).data = _
      rw [String.data_append, String.data_append, joinComma_data (y :: xs)]
      simp [joinCommaL]

theorem comma_mem_joinCommaL (x y : List Char) (xs : List (List Char)) :
    ',' ∈ joinCommaL (x :: y :: xs) := by
  show ',' ∈ x ++ ',' :: joinCommaL (y :: xs)
  exact List.mem_append_right _ (List.mem_cons_self _ _)

theorem append_comma_cancel :
    ∀ {x y a b : List Char}, ',' ∉ x → ',' ∉ y →
      x ++ ',' :: a = y ++ ',' :: b → x = y ∧ a = b
  | [], [], _, _, _, _, h => by simpa using h
  | [], c :: y', a, b, _, hy, h => by
      simp only [List.nil_append, List.cons_append, List.cons.injEq] at h
      exact absurd (h.1 ▸ List.mem_cons_self ',' _ : ',' ∈ c :: y')
        (by simpa [h.1] using hy)
  | c :: x', [], a, b, hx, _, h => by
      simp only [List.nil_append, List.cons_append, List.cons.injEq] at h
      refine absurd ?_ hx
      rw [h.1]
      exact List.mem_cons_self ',' x'
  | c :: x', d :: y', a, b, hx, hy, h => by
      simp only [List.cons_append, List.cons.injEq] at h
      have hx' : ',' ∉ x' := fun hm => hx (List.mem_cons_of_mem _ hm)
      have hy' : ',' ∉ y' := fun hm => hy (List.mem_cons_of_mem _ hm)
      obtain ⟨h1, h2⟩ := append_comma_cancel hx' hy' h.2
      exact ⟨by rw [h.1, h1], h2⟩

theorem joinCommaL_inj :
    ∀ (xs ys : List (List Char)), xs ≠ [] → ys ≠ [] →
      (∀ x ∈ xs, ',' ∉ x) → (∀ y ∈ ys, ',' ∉ y) →
      joinCommaL xs = joinCommaL ys → xs = ys
  | [], _, hne, _, _, _, _ => absurd rfl hne
  | _ :: _, [], _, hne, _, _, _ => absurd rfl hne
  | [x], [y], _, _, _, _, h => by rw [show x = y from h]
  | [x], y :: y' :: ys, _, _, hx, hy, h => by
      have h2 : x = joinCommaL (y :: y' :: ys) := h
      refine absurd ?_ (hx x (List.mem_singleton_self x))
      rw [h2]
      exact comma_mem_joinCommaL y y' ys
  | x :: x' :: xs, [y], _, _, hx, hy, h => by
      have h2 : joinCommaL (x :: x' :: xs) = y := h
      refine absurd ?_ (hy y (List.mem_singleton_self y))
      rw [h2.symm]
      exact comma_mem_joinCommaL x x' xs
  | x :: x' :: xs, y :: y' :: ys, _, _, hx, hy, h => by
      have hx0 : ',' ∉ x := hx x (List.mem_cons_self _ _)
      have hy0 : ',' ∉ y := hy y (List.mem_cons_self _ _)
      obtain ⟨h1, h2⟩ := append_comma_cancel hx0 hy0 h
      have := joinCommaL_inj (x' :: xs) (y' :: ys) (by simp) (by simp)
        (fun z hz => hx z (List.mem_cons_of_mem _ hz))
        (fun z hz => hy z (List.mem_cons_of_mem _ hz)) h2
      rw [h1, this]

theorem string_data_inj {a b : String} (h : a.data = b.data) : a = b := by
  cases a
  cases b
  simp only at h
  rw [h]

theorem joinComma_inj {xs ys : List String} (hxne : xs ≠ []) (hyne : ys ≠ [])
    (hx : ∀ x ∈ xs, ',' ∉ x.data) (hy : ∀ y ∈ ys, ',' ∉ y.data)
    (h : joinComma xs = joinComma ys) : xs = ys := by
  have hd : joinCommaL (xs.map String.data) = joinCommaL (ys.map String.data) := by
    rw [← joinComma_data, ← joinComma_data, h]
  have := joinCommaL_inj (xs.map String.data) (ys.map String.data)
    (by simpa using hxne) (by simpa using hyne)
    (by intro x hxm; obtain ⟨s, hs, rfl⟩ := List.mem_map.1 hxm; exact hx s hs)
    (by intro y hym; obtain ⟨s, hs, rfl⟩ := List.mem_map.1 hym; exact hy s hs) hd
  exact List.map_injective_iff.2 (fun a b => string_data_inj) this

theorem charsLe_total : ∀ as bs : List Char, charsLe as bs = true ∨ charsLe bs as = true
  | [], _ => Or.inl rfl
  | _ :: _, [] => Or.inr rfl
  | a :: as, b :: bs => by
      by_cases h1 : a.toNat < b.toNat
      · exact Or.inl (by simp [charsLe, h1])
      · by_cases h2 : b.toNat < a.toNat
        · exact Or.inr (by simp [charsLe, h2])
        · rcases charsLe_total as bs with h | h
          · exact Or.inl (by simp [charsLe, h1, h2, h])
          · exact Or.inr (by simp [charsLe, h1, h2, h])

theorem charsLe_cons {a b : Char} {as bs : List Char} :
    charsLe (a :: as) (b :: bs) = true ↔
      a.toNat < b.toNat ∨ (a.toNat = b.toNat ∧ charsLe as bs = true) := by
  simp only [charsLe]
  by_cases h1 : a.toNat < b.toNat
  · simp [h1]
  · by_cases h2 : b.toNat < a.toNat
    · simp only [if_neg h1, if_pos h2]
      constructor
      · intro h
        exact absurd h (by simp)
      · intro h
        rcases h with h | h
        · omega
        · omega
    · have he : a.toNat = b.toNat := by omega
      simp [h1, h2, he]

theorem charsLe_trans : ∀ {as bs cs : List Char}, charsLe as bs = true →
    charsLe bs cs = true → charsLe as cs = true
  | [], _, _, _, _ => rfl
  | _ :: _, [], _, h1, _ => by simp [charsLe] at h1
  | _ :: _, _ :: _, [], _, h2 => by simp [charsLe] at h2
  | a :: as, b :: bs, c :: cs, h1, h2 => by
      rcases charsLe_cons.1 h1 with hab | ⟨hab, h1'⟩ <;>
        rcases charsLe_cons.1 h2 with hbc | ⟨hbc, h2'⟩
      · exact charsLe_cons.2 (Or.inl (by omega))
      · exact charsLe_cons.2 (Or.inl (by omega))
      · exact charsLe_cons.2 (Or.inl (by omega))
      · exact charsLe_cons.2 (Or.inr ⟨by omega, charsLe_trans h1' h2'⟩)

theorem charsLe_antisymm : ∀ {as bs : List Char}, charsLe as bs = true →
    charsLe bs as = true → as = bs
  | [], [], _, _ => rfl
  | [], _ :: _, _, h2 => by simp [charsLe] at h2
  | _ :: _, [], h1, _ => by simp [charsLe] at h1
  | a :: as, b :: bs, h1, h2 => by
      rcases charsLe_cons.1 h1 with hab | ⟨hab, h1'⟩ <;>
        rcases charsLe_cons.1 h2 with hba | ⟨hba, h2'⟩
      · omega
      · omega
      · omega
      · have hv : a = b := by
          apply Char.ext
          apply UInt32.ext
          exact hab
        rw [hv, charsLe_antisymm h1' h2']

instance : IsTotal String strLeRel :=
  ⟨fun a b => charsLe_total a.data b.data⟩

instance : IsTrans String strLeRel :=
  ⟨fun _ _ _ h1 h2 => charsLe_trans h1 h2⟩

instance : IsAntisymm String strLeRel :=
  ⟨fun a b h1 h2 => string_data_inj (charsLe_antisymm h1 h2)⟩

theorem sortStrings_perm (l : List String) : List.Perm (sortStrings l) l :=
  List.perm_insertionSort _ l

theorem mem_sortStrings {l : List String} {x : String} :
    x ∈ sortStrings l ↔ x ∈ l :=
  (sortStrings_perm l).mem_iff

theorem sortStrings_eq_of_perm {l₁ l₂ : List String} (h : List.Perm l₁ l₂) :
    sortStrings l₁ = sortStrings l₂ :=
  List.eq_of_perm_of_sorted
    (((sortStrings_perm l₁).trans h).trans (sortStrings_perm l₂).symm)
    (List.sorted_insertionSort _ l₁) (List.sorted_insertionSort _ l₂)

theorem keyOf_pure (l : List String) :
    keyOf (l.map some) = joinComma (sortStrings l) := by
  unfold keyOf
  have h1 : (l.map some).filterMap id = l := by
    induction l with
    | nil => rfl
    | cons a l ih => simp [List.filterMap_cons, ih]
  have h2 : (l.map some).filter (fun v => v.isNone) = [] := by
    induction l with
    | nil => rfl
    | cons a l ih => simp [List.filter_cons, ih]
  rw [h1, h2]
  simp

/-- `keyOf` is order-independent on duplicate-free pure subsets: two
subsets with the same members get the same key. -/
theorem keyOf_congr {S T : List String} (h : ∀ x, x ∈ S ↔ x ∈ T)
    (hS : S.Nodup) (hT : T.Nodup) : keyOf (S.map some) = keyOf (T.map some) := by
  rw [keyOf_pure, keyOf_pure,
    sortStrings_eq_of_perm ((List.perm_ext_iff_of_nodup hS hT).2 h)]

/-- `keyOf` is injective on nonempty duplicate-free pure subsets whose
member identifiers are free of commas. -/
theorem keyOf_inj {S T : List String} (hSne : S ≠ []) (hTne : T ≠ [])
    (hScf : ∀ x ∈ S, ',' ∉ x.data) (hTcf : ∀ x ∈ T, ',' ∉ x.data)
    (h : keyOf (S.map some) = keyOf (T.map some)) : ∀ x, x ∈ S ↔ x ∈ T := by
  rw [keyOf_pure, keyOf_pure] at h
  have hsne : sortStrings S ≠ [] := by
    intro h0
    have hp : List.Perm ([] : List String) S := h0 ▸ sortStrings_perm S
    exact hSne hp.symm.eq_nil
  have htne : sortStrings T ≠ [] := by
    intro h0
    have hp : List.Perm ([] : List String) T := h0 ▸ sortStrings_perm T
    exact hTne hp.symm.eq_nil
  have := joinComma_inj hsne htne
    (fun x hx => hScf x (mem_sortStrings.1 hx))
    (fun x hx => hTcf x (mem_sortStrings.1 hx)) h
  intro x
  rw [← mem_sortStrings (l := S), ← mem_sortStrings (l := T), this]

theorem joinComma_ne_empty {l : List String} (hne : l ≠ [])
    (h : ∀ x ∈ l, x ≠ "") : joinComma l ≠ "" := by
  match l, hne with
  | [x], _ => exact h x (List.mem_singleton_self x)
  | x :: y :: xs, _ =>
      intro h0
      have hd := congrArg String.data h0
      rw [joinComma_data] at hd
      simp only [List.map_cons] at hd
      have hm : ',' ∈ joinCommaL (x.data :: y.data :: List.map String.data xs) :=
        comma_mem_joinCommaL _ _ _
      rw [hd] at hm
      simpa using hm

/-- **C4** (amended).  For duplicate-free sets of state identifiers
that are non-empty strings containing no comma, `keyOf` yields equal
keys exactly when the sets have the same members, independently of
element order. -/
theorem C4_keyOf_canonical_amended (S T : List String)
    (hS : S.Nodup) (hT : T.Nodup)
    (hSel : ∀ x ∈ S, x ≠ "" ∧ ',' ∉ x.data)
    (hTel : ∀ x ∈ T, x ≠ "" ∧ ',' ∉ x.data) :
    keyOf (S.map some) = keyOf (T.map some) ↔ (∀ x, x ∈ S ↔ x ∈ T) := by
  constructor
  · intro h
    by_cases hSe : S = []
    · subst hSe
      by_cases hTe : T = []
      · subst hTe
        simp
      · exfalso
        rw [keyOf_pure, keyOf_pure] at h
        have htne : sortStrings T ≠ [] := by
          intro h0
          have hp : List.Perm ([] : List String) T := h0 ▸ sortStrings_perm T
          exact hTe hp.symm.eq_nil
        refine joinComma_ne_empty htne
          (fun x hx => (hTel x (mem_sortStrings.1 hx)).1) ?_
        rw [← h]
        rfl
    · by_cases hTe : T = []
      · exfalso
        subst hTe
        rw [keyOf_pure, keyOf_pure] at h
        have hsne : sortStrings S ≠ [] := by
          intro h0
          have hp : List.Perm ([] : List String) S := h0 ▸ sortStrings_perm S
          exact hSe hp.symm.eq_nil
        refine joinComma_ne_empty hsne
          (fun x hx => (hSel x (mem_sortStrings.1 hx)).1) ?_
        rw [h]
        rfl
      · exact keyOf_inj hSe hTe (fun x hx => (hSel x hx).2)
          (fun x hx => (hTel x hx).2) h
  · intro h
    exact keyOf_congr h hS hT

/-- Witness for C4 at a concrete pair of differently ordered subsets. -/
theorem C4_keyOf_canonical_witness :
    (["q1", "q2"] : List String).Nodup ∧ (["q2", "q1"] : List String).Nodup ∧
      (∀ x ∈ (["q1", "q2"] : List String), x ≠ "" ∧ ',' ∉ x.data) ∧
      (∀ x ∈ (["q2", "q1"] : List String), x ≠ "" ∧ ',' ∉ x.data) ∧
      (∀ x, x ∈ (["q1", "q2"] : List String) ↔ x ∈ (["q2", "q1"] : List String)) :=
  ⟨by decide, by decide, by decide, by decide,
    (C4_keyOf_canonical_amended ["q1", "q2"] ["q2", "q1"]
      (by decide) (by decide) (by decide) (by decide)).1 (by decide)⟩

/-- Counterexample to C4 as stated: over arbitrary state identifiers
`keyOf` is not injective — the distinct sets `{"a,b"}` and `{"a","b"}`
share the key `"a,b"`. -/
theorem C4_keyOf_counterexample :
    keyOf [some "a,b"] = keyOf [some "a", some "b"] ∧
      ("a,b" ∈ (["a,b"] : List String)) ∧ ("a,b" ∉ (["a", "b"] : List String)) := by
  refine ⟨by decide, by decide, by decide⟩

/-- Counterexample to C9 as stated: the automaton `exEmptyStart` has a
defined start state (the empty string) and a vacuously deterministic
transition table, yet on the empty input the set-based evaluator
rejects (falsy start) while the single-state evaluator accepts. -/
theorem C9_counterexample :
    (exEmptyStart.start = some "") ∧ Deterministic exEmptyStart ∧
      (acceptsN exEmptyStart []).accepted = false ∧
      (acceptsD exEmptyStart []).accepted = true := by
  refine ⟨rfl, ?_, rfl, rfl⟩
  intro p hp
  simp [exEmptyStart] at hp

/-! ## The subset-construction worklist -/

theorem collectInner_eq : ∀ (e : List (String × List StVal)) (init : List StVal),
    e.foldr (fun q acc2 => q.2 ++ acc2) init = (e.map (·.2)).flatten ++ init := by
  intro e
  induction e with
  | nil => simp
  | cons q e ih =>
      intro init
      simp [ih]

theorem collectDests_eq :
    ∀ (l : List (String × List (String × List StVal))) (init : List StVal),
      l.foldr (fun p acc => p.2.foldr (fun q acc2 => q.2 ++ acc2) acc) init =
        (l.map (fun p => (p.2.map (·.2)).flatten)).flatten ++ init := by
  intro l
  induction l with
  | nil => simp
  | cons p l ih =>
      intro init
      simp only [List.foldr_cons, List.map_cons, List.flatten_cons, List.append_assoc]
      rw [ih, collectInner_eq]

theorem mem_uList_of_dest {nfa : Automaton} {k : String}
    {e : List (String × List StVal)} {ch : String} {ds : List StVal} {v : StVal}
    (h1 : (k, e) ∈ nfa.transitions) (h2 : (ch, ds) ∈ e) (h3 : v ∈ ds) :
    v ∈ uList nfa := by
  unfold uList
  refine List.mem_cons_of_mem _ ?_
  rw [collectDests_eq]
  refine List.mem_append_left _ ?_
  rw [List.mem_flatten]
  refine ⟨(e.map (·.2)).flatten, List.mem_map.2 ⟨(k, e), h1, rfl⟩, ?_⟩
  rw [List.mem_flatten]
  exact ⟨ds, List.mem_map.2 ⟨(ch, ds), h2, rfl⟩, h3⟩

theorem movesOf_subset_uList {nfa : Automaton} {s : StVal} {ch : String}
    {v : StVal} (h : v ∈ movesOf nfa s ch) : v ∈ uList nfa := by
  unfold movesOf at h
  rcases htr : getObj nfa.transitions (jsKey s) with _ | e
  · rw [htr] at h
    simp [getObj] at h
  · rw [htr] at h
    simp only [Option.getD_some] at h
    rcases hrow : getObj e ch with _ | ds
    · rw [hrow] at h
      simp at h
    · rw [hrow] at h
      simp only [Option.getD_some] at h
      exact mem_uList_of_dest (getObj_mem htr) (getObj_mem hrow) h

theorem nfaStep_subset_uList {nfa : Automaton} {cur : List StVal} {ch : String}
    {v : StVal} (h : v ∈ nfaStep nfa cur ch) : v ∈ uList nfa := by
  obtain ⟨s, _, hv⟩ := mem_nfaStep.1 h
  exact movesOf_subset_uList hv

theorem filter_isNone_of_nodup {l : List StVal} (h : l.Nodup) :
    l.filter (fun v => v.isNone) = if none ∈ l then [none] else [] := by
  induction l with
  | nil => simp
  | cons v l ih =>
      simp only [List.nodup_cons] at h
      cases v with
      | none =>
          simp only [List.filter_cons, Option.isNone_none, if_pos rfl]
          rw [ih h.2, if_neg h.1]
          simp
      | some s =>
          simp only [List.filter_cons]
          rw [ih h.2]
          simp [List.mem_cons]

theorem mem_filterMap_id_iff {l : List StVal} {x : String} :
    x ∈ l.filterMap id ↔ some x ∈ l := by
  rw [List.mem_filterMap]
  constructor
  · rintro ⟨a, ha, rfl⟩
    exact ha
  · intro h
    exact ⟨some x, h, rfl⟩

theorem nodup_filterMap_id {l : List StVal} (h : l.Nodup) :
    (l.filterMap id).Nodup := by
  refine List.Nodup.filterMap ?_ h
  intro a a' b hb hb'
  simp only [id] at hb hb'
  rw [Option.mem_def] at hb hb'
  rw [hb, hb']

/-- `keyOf` depends only on the membership of a duplicate-free subset,
not on its order. -/
theorem keyOf_congr_stval {S T : List StVal} (hS : S.Nodup) (hT : T.Nodup)
    (h : ∀ v, v ∈ S ↔ v ∈ T) : keyOf S = keyOf T := by
  unfold keyOf
  have h1 : sortStrings (S.filterMap id) = sortStrings (T.filterMap id) := by
    refine sortStrings_eq_of_perm ?_
    refine (List.perm_ext_iff_of_nodup (nodup_filterMap_id hS) (nodup_filterMap_id hT)).2 ?_
    intro x
    rw [mem_filterMap_id_iff, mem_filterMap_id_iff]
    exact h (some x)
  have h2 : S.filter (fun v => v.isNone) = T.filter (fun v => v.isNone) := by
    rw [filter_isNone_of_nodup hS, filter_isNone_of_nodup hT]
    by_cases hn : none ∈ S
    · rw [if_pos hn, if_pos ((h none).1 hn)]
    · rw [if_neg hn, if_neg (fun hc => hn ((h none).2 hc))]
  rw [h1, h2]

theorem mLength_le_powBound {nfa : Automaton} {m : List (String × List StVal)}
    (hk : (objKeys m).Nodup) (he : ∀ p ∈ m, EntryOk nfa p) :
    m.length ≤ powBound nfa := by
  have hpw : m.Pairwise (fun p q => p.1 ≠ q.1) := by
    have := (List.pairwise_map).1 hk
    exact this
  have hfs : (m.map (fun p => p.2.toFinset)).Nodup := by
    have himp : m.Pairwise (fun p q => p.2.toFinset ≠ q.2.toFinset) := by
      refine hpw.imp_of_mem ?_
      intro p q hp hq hne heq
      refine hne ?_
      have ep := he p hp
      have eq' := he q hq
      rw [ep.1, eq'.1]
      refine keyOf_congr_stval ep.2.1 eq'.2.1 ?_
      intro v
      rw [← List.mem_toFinset, ← List.mem_toFinset, heq]
    exact (List.pairwise_map).2 himp
  have hsub : ∀ f ∈ (m.map (fun p => p.2.toFinset)),
      f ∈ (uList nfa).toFinset.powerset := by
    intro f hf
    obtain ⟨p, hp, rfl⟩ := List.mem_map.1 hf
    rw [Finset.mem_powerset]
    intro v hv
    rw [List.mem_toFinset] at hv ⊢
    exact (he p hp).2.2.2 v hv
  have hlen : m.length = (m.map (fun p => p.2.toFinset)).length := by
    rw [List.length_map]
  rw [hlen, ← List.toFinset_card_of_nodup hfs]
  calc (m.map (fun p => p.2.toFinset)).toFinset.card
      ≤ (uList nfa).toFinset.powerset.card := by
        refine Finset.card_le_card ?_
        intro f hf
        exact hsub f (List.mem_toFinset.1 hf)
    _ = 2 ^ (uList nfa).toFinset.card := Finset.card_powerset _
    _ = powBound nfa := by rw [List.card_toFinset]; rfl

theorem mem_keys_setObj {o : List (String × α)} {key k : String} {v : α} :
    k ∈ objKeys (setObj o key v) ↔ k ∈ objKeys o ∨ k = key := by
  by_cases h : key ∈ objKeys o
  · unfold objKeys
    rw [setObj_keys_of_mem v h]
    constructor
    · exact fun hk => Or.inl hk
    · rintro (hk | rfl) <;> [exact hk; exact h]
  · unfold objKeys
    rw [setObj_of_not_mem v h]
    simp [or_comm]

theorem mem_keys_of_mem {o : List (String × α)} {p : String × α} (h : p ∈ o) :
    p.1 ∈ objKeys o :=
  List.mem_map.2 ⟨p, h, rfl⟩

theorem rowVal_def (nfa : Automaton) (S : List StVal) (sym : String) :
    rowVal nfa S sym =
      if (nfaStep nfa S sym).isEmpty then []
      else [some (keyOf (nfaStep nfa S sym))] := rfl

theorem procSyms_spec (nfa : Automaton) (S : List StVal) :
    ∀ (syms : List String) (stack : List (List StVal))
      (m : List (String × List StVal)) (row : List (String × List StVal)),
      (objKeys m).Nodup →
      (∀ p ∈ m, EntryOk nfa p) →
      (∀ X ∈ stack, (keyOf X, X) ∈ m) →
      ((stack.map keyOf).Nodup) →
      (objKeys row).Nodup →
      (∀ p ∈ m, p ∈ (procSyms nfa S syms stack m row).2.1) ∧
      (objKeys (procSyms nfa S syms stack m row).2.1).Nodup ∧
      (∀ p ∈ (procSyms nfa S syms stack m row).2.1, EntryOk nfa p) ∧
      (∀ X ∈ (procSyms nfa S syms stack m row).1,
        (keyOf X, X) ∈ (procSyms nfa S syms stack m row).2.1) ∧
      (((procSyms nfa S syms stack m row).1.map keyOf).Nodup) ∧
      (∃ pushed, (procSyms nfa S syms stack m row).1 = pushed ++ stack ∧
        (∀ X ∈ pushed, keyOf X ∉ objKeys m) ∧
        (∀ X ∈ pushed, X.Nodup ∧ X ≠ [] ∧ ∀ v ∈ X, v ∈ uList nfa) ∧
        (procSyms nfa S syms stack m row).2.1.length = m.length + pushed.length ∧
        (∀ p ∈ (procSyms nfa S syms stack m row).2.1, p ∈ m ∨ p.2 ∈ pushed)) ∧
      (∀ sym, getObj (procSyms nfa S syms stack m row).2.2 sym =
        if sym ∈ syms then some (rowVal nfa S sym) else getObj row sym) ∧
      (objKeys (procSyms nfa S syms stack m row).2.2).Nodup ∧
      (∀ k, k ∈ objKeys (procSyms nfa S syms stack m row).2.2 ↔
        k ∈ objKeys row ∨ k ∈ syms) ∧
      (∀ sym ∈ syms, nfaStep nfa S sym ≠ [] →
        keyOf (nfaStep nfa S sym) ∈ objKeys (procSyms nfa S syms stack m row).2.1) := by
  intro syms
  induction syms with
  | nil =>
      intro stack m row hmk hme hsm hsk hrk
      simp only [procSyms]
      refine ⟨fun p hp => hp, hmk, hme, hsm, hsk,
        ⟨[], by simp, by simp, by simp, by simp, fun p hp => Or.inl hp⟩,
        fun sym => by simp, hrk, fun k => by simp, by simp⟩
  | cons sym syms ih =>
      intro stack m row hmk hme hsm hsk hrk
      simp only [procSyms]
      by_cases hcond : (!(nfaStep nfa S sym).isEmpty &&
          (getObj m (keyOf (nfaStep nfa S sym))).isNone) = true
      · -- fresh nonempty successor subset: push and register it
        rw [if_pos hcond]
        simp only [Bool.and_eq_true, Bool.not_eq_true'] at hcond
        have hTne : nfaStep nfa S sym ≠ [] := by
          intro h0
          rw [h0] at hcond
          simp at hcond
        have hTfresh : keyOf (nfaStep nfa S sym) ∉ objKeys m := by
          have h0 := Option.isNone_iff_eq_none.1 hcond.2
          rw [getObj_eq_none_iff] at h0
          exact h0
        set T := nfaStep nfa S sym with hT
        set Tkey := keyOf T with hTk
        have hm' : setObj m Tkey T = m ++ [(Tkey, T)] := setObj_of_not_mem T hTfresh
        have hmk' : (objKeys (setObj m Tkey T)).Nodup := setObj_keys_nodup T hmk
        have hme' : ∀ p ∈ setObj m Tkey T, EntryOk nfa p := by
          intro p hp
          rw [hm'] at hp
          rcases List.mem_append.1 hp with hp | hp
          · exact hme p hp
          · rcases List.mem_singleton.1 hp with rfl
            exact ⟨rfl, nfaStep_nodup nfa S sym, hTne,
              fun v hv => nfaStep_subset_uList hv⟩
        have hsm' : ∀ X ∈ T :: stack, (keyOf X, X) ∈ setObj m Tkey T := by
          intro X hX
          rcases List.mem_cons.1 hX with rfl | hX
          · rw [hm']
            exact List.mem_append_right _ (List.mem_singleton_self _)
          · rw [hm']
            exact List.mem_append_left _ (hsm X hX)
        have hsk' : ((T :: stack).map keyOf).Nodup := by
          simp only [List.map_cons, List.nodup_cons]
          refine ⟨?_, hsk⟩
          intro hmem
          obtain ⟨X, hX, hkX⟩ := List.mem_map.1 hmem
          refine hTfresh ?_
          show keyOf T ∈ objKeys m
          rw [← hkX]
          exact mem_keys_of_mem (hsm X hX)
        have hrk' : (objKeys (setObj row sym
            (if T.isEmpty then [] else [some Tkey]))).Nodup :=
          setObj_keys_nodup _ hrk
        obtain ⟨p1, p2, p3, p4, p5, ⟨pushed, hps, hpf, hpe, hpl, hpo⟩, p7, p8, p9, p10⟩ :=
          ih (T :: stack) (setObj m Tkey T)
            (setObj row sym (if T.isEmpty then [] else [some Tkey]))
            hmk' hme' hsm' hsk' hrk'
        have hmsub : ∀ p ∈ m, p ∈ (setObj m Tkey T) := by
          intro p hp
          rw [hm']
          exact List.mem_append_left _ hp
        refine ⟨fun p hp => p1 p (hmsub p hp), p2, p3, p4, p5,
          ⟨pushed ++ [T], ?_, ?_, ?_, ?_, ?_⟩, ?_, p8, ?_, ?_⟩
        · rw [hps, List.append_assoc]
          rfl
        · intro X hX
          rcases List.mem_append.1 hX with hX | hX
          · intro hC
            refine hpf X hX ?_
            rw [hm']
            unfold objKeys
            rw [List.map_append]
            exact List.mem_append_left _ hC
          · rcases List.mem_singleton.1 hX with rfl
            exact hTfresh
        · intro X hX
          rcases List.mem_append.1 hX with hX | hX
          · exact hpe X hX
          · rcases List.mem_singleton.1 hX with rfl
            exact ⟨nfaStep_nodup nfa S sym, hTne, fun v hv => nfaStep_subset_uList hv⟩
        · rw [hpl, hm']
          simp only [List.length_append, List.length_singleton]
          omega
        · intro p hp
          rcases hpo p hp with hp' | hp'
          · rw [hm'] at hp'
            rcases List.mem_append.1 hp' with hp'' | hp''
            · exact Or.inl hp''
            · rcases List.mem_singleton.1 hp'' with rfl
              exact Or.inr (List.mem_append_right _ (List.mem_singleton_self _))
          · exact Or.inr (List.mem_append_left _ hp')
        · intro sym'
          rw [p7 sym']
          by_cases h1 : sym' ∈ syms
          · rw [if_pos h1, if_pos (List.mem_cons_of_mem _ h1)]
          · rw [if_neg h1]
            by_cases h2 : sym' = sym
            · subst h2
              rw [if_pos (List.mem_cons_self _ _), getObj_setObj_self]
              rfl
            · have hnotin : ¬ (sym' ∈ sym :: syms) := by
                intro hc
                rcases List.mem_cons.1 hc with hc | hc
                · exact h2 hc
                · exact h1 hc
              rw [if_neg hnotin]
              exact getObj_setObj_ne row _ (fun h => h2 h.symm)
        · intro k
          rw [p9 k, mem_keys_setObj]
          simp only [List.mem_cons]
          tauto
        · intro sym' hsym' hne'
          rcases List.mem_cons.1 hsym' with rfl | hsym''
          · have : (Tkey, T) ∈ (procSyms nfa S syms (T :: stack) (setObj m Tkey T)
                (setObj row sym' (if T.isEmpty then [] else [some Tkey]))).2.1 := by
              refine p1 _ ?_
              rw [hm']
              exact List.mem_append_right _ (List.mem_singleton_self _)
            exact mem_keys_of_mem this
          · exact p10 sym' hsym'' hne'
      · -- empty or already-registered successor subset: only the row changes
        rw [if_neg hcond]
        have hrk' : (objKeys (setObj row sym
            (if (nfaStep nfa S sym).isEmpty then []
             else [some (keyOf (nfaStep nfa S sym))]))).Nodup :=
          setObj_keys_nodup _ hrk
        obtain ⟨p1, p2, p3, p4, p5, ⟨pushed, hps, hpf, hpe, hpl, hpo⟩, p7, p8, p9, p10⟩ :=
          ih stack m
            (setObj row sym (if (nfaStep nfa S sym).isEmpty then []
              else [some (keyOf (nfaStep nfa S sym))]))
            hmk hme hsm hsk hrk'
        refine ⟨p1, p2, p3, p4, p5, ⟨pushed, hps, hpf, hpe, hpl, hpo⟩, ?_, p8, ?_, ?_⟩
        · intro sym'
          rw [p7 sym']
          by_cases h1 : sym' ∈ syms
          · rw [if_pos h1, if_pos (List.mem_cons_of_mem _ h1)]
          · rw [if_neg h1]
            by_cases h2 : sym' = sym
            · subst h2
              rw [if_pos (List.mem_cons_self _ _), getObj_setObj_self]
              rfl
            · have hnotin : ¬ (sym' ∈ sym :: syms) := by
                intro hc
                rcases List.mem_cons.1 hc with hc | hc
                · exact h2 hc
                · exact h1 hc
              rw [if_neg hnotin]
              exact getObj_setObj_ne row _ (fun h => h2 h.symm)
        · intro k
          rw [p9 k, mem_keys_setObj]
          simp only [List.mem_cons]
          tauto
        · intro sym' hsym' hne'
          rcases List.mem_cons.1 hsym' with rfl | hsym''
          · have hreg : keyOf (nfaStep nfa S sym') ∈ objKeys m := by
              by_contra hC
              refine hcond ?_
              simp only [Bool.and_eq_true, Bool.not_eq_true']
              constructor
              · cases h0 : nfaStep nfa S sym' with
                | nil => exact absurd h0 hne'
                | cons a l => rfl
              · rw [Option.isNone_iff_eq_none, getObj_eq_none_iff]
                exact hC
            obtain ⟨p, hp, hpk⟩ := List.mem_map.1 hreg
            exact List.mem_map.2 ⟨p, p1 p hp, hpk⟩
          · exact p10 sym' hsym'' hne'

theorem rowClosed_mono {nfa : Automaton} {S : List StVal}
    {m m' : List (String × List StVal)} (h : RowClosed nfa S m)
    (hsub : ∀ k ∈ objKeys m, k ∈ objKeys m') : RowClosed nfa S m' :=
  fun sym hs hne => hsub _ (h sym hs hne)

theorem nfaToDfaLoop_post (nfa : Automaton) :
    ∀ (fuel : Nat) (stack : List (List StVal))
      (m : List (String × List StVal)) (tr),
      LoopInv nfa stack m tr →
      stack.length + (powBound nfa - m.length) ≤ fuel →
      (∀ p ∈ m, p ∈ (nfaToDfaLoop nfa fuel stack m tr).1) ∧
      LoopInv nfa [] (nfaToDfaLoop nfa fuel stack m tr).1
        (nfaToDfaLoop nfa fuel stack m tr).2 := by
  intro fuel
  induction fuel with
  | zero =>
      intro stack m tr hinv hfuel
      have hstack : stack = [] := by
        cases stack with
        | nil => rfl
        | cons S rest => simp at hfuel
      subst hstack
      simp only [nfaToDfaLoop]
      exact ⟨fun p hp => hp, hinv⟩
  | succ fuel ih =>
      intro stack m tr hinv hfuel
      cases stack with
      | nil =>
          simp only [nfaToDfaLoop]
          exact ⟨fun p hp => hp, hinv⟩
      | cons S rest =>
          obtain ⟨hmk, hme, hsm, hsk, htrnone, htrk, htrsub, hproc⟩ := hinv
          have hSm : (keyOf S, S) ∈ m := hsm S (List.mem_cons_self _ _)
          have hSok := hme _ hSm
          have hrow0 : getObj tr (keyOf S) = none :=
            htrnone S (List.mem_cons_self _ _)
          have hstep : nfaToDfaLoop nfa (fuel + 1) (S :: rest) m tr =
              nfaToDfaLoop nfa fuel
                (procSyms nfa S nfa.alphabet rest m []).1
                (procSyms nfa S nfa.alphabet rest m []).2.1
                (setObj tr (keyOf S) (procSyms nfa S nfa.alphabet rest m []).2.2) := by
            simp only [nfaToDfaLoop, hrow0, Option.getD_none]
          have hsm' : ∀ X ∈ rest, (keyOf X, X) ∈ m :=
            fun X hX => hsm X (List.mem_cons_of_mem _ hX)
          have hsk' : (rest.map keyOf).Nodup := by
            simp only [List.map_cons, List.nodup_cons] at hsk
            exact hsk.2
          have hSknotr : keyOf S ∉ rest.map keyOf := by
            simp only [List.map_cons, List.nodup_cons] at hsk
            exact hsk.1
          obtain ⟨p1, p2, p3, p4, p5, ⟨pushed, hps, hpf, hpe, hpl, hpo⟩, p7, p8, p9, p10⟩ :=
            procSyms_spec nfa S nfa.alphabet rest m [] hmk hme hsm' hsk'
              (by simp [objKeys])
          have hkeysmono : ∀ k ∈ objKeys m,
              k ∈ objKeys (procSyms nfa S nfa.alphabet rest m []).2.1 := by
            intro k hk
            obtain ⟨p, hp, hpk⟩ := List.mem_map.1 hk
            exact List.mem_map.2 ⟨p, p1 p hp, hpk⟩
          have hinv' : LoopInv nfa (procSyms nfa S nfa.alphabet rest m []).1
              (procSyms nfa S nfa.alphabet rest m []).2.1
              (setObj tr (keyOf S) (procSyms nfa S nfa.alphabet rest m []).2.2) := by
            refine ⟨p2, p3, p4, p5, ?_, setObj_keys_nodup _ htrk, ?_, ?_⟩
            · intro X hX
              rw [hps] at hX
              rcases List.mem_append.1 hX with hX | hX
              · have hfresh := hpf X hX
                have hne : keyOf S ≠ keyOf X := by
                  intro h0
                  exact hfresh (h0 ▸ mem_keys_of_mem hSm)
                rw [getObj_setObj_ne tr _ hne, getObj_eq_none_iff]
                intro hc
                exact hfresh (htrsub _ hc)
              · have hne : keyOf S ≠ keyOf X := by
                  intro h0
                  exact hSknotr (h0 ▸ List.mem_map.2 ⟨X, hX, rfl⟩)
                rw [getObj_setObj_ne tr _ hne]
                exact htrnone X (List.mem_cons_of_mem _ hX)
            · intro k hk
              rcases mem_keys_setObj.1 hk with hk | rfl
              · exact hkeysmono k (htrsub k hk)
              · exact hkeysmono _ (mem_keys_of_mem hSm)
            · intro p hp
              rcases hpo p hp with hpm | hppush
              · rcases hproc p hpm with hin | ⟨row, hrowp, hok, hcl⟩
                · rcases List.mem_cons.1 hin with heq | hin
                  · refine Or.inr ⟨(procSyms nfa S nfa.alphabet rest m []).2.2, ?_, ?_, ?_⟩
                    · have hp1 : p.1 = keyOf S := by
                        rw [(hme p hpm).1, heq]
                      rw [hp1]
                      exact getObj_setObj_self tr (keyOf S) _
                    · refine ⟨p8, ?_, ?_⟩
                      · intro k hk
                        rcases (p9 k).1 hk with hk | hk
                        · simp [objKeys] at hk
                        · exact hk
                      · intro sym hsym
                        rw [p7 sym, if_pos hsym, heq]
                    · rw [heq]
                      intro sym hsym hne
                      exact p10 sym hsym hne
                  · exact Or.inl (hps ▸ List.mem_append_right _ hin)
                · have hne : keyOf S ≠ p.1 := by
                    intro h0
                    rw [← h0] at hrowp
                    rw [hrow0] at hrowp
                    exact Option.noConfusion hrowp
                  refine Or.inr ⟨row, ?_, hok, rowClosed_mono hcl hkeysmono⟩
                  rw [getObj_setObj_ne tr _ hne]
                  exact hrowp
              · exact Or.inl (hps ▸ List.mem_append_left _ hppush)
          have hmeasure : (procSyms nfa S nfa.alphabet rest m []).1.length +
              (powBound nfa - (procSyms nfa S nfa.alphabet rest m []).2.1.length)
                ≤ fuel := by
            have hbound : (procSyms nfa S nfa.alphabet rest m []).2.1.length
                ≤ powBound nfa := mLength_le_powBound p2 p3
            rw [hps, List.length_append] at *
            rw [hpl] at *
            simp only [List.length_cons] at hfuel
            omega
          obtain ⟨q1, q2⟩ := ih _ _ _ hinv' hmeasure
          rw [hstep]
          exact ⟨fun p hp => q1 p (p1 p hp), q2⟩

/-- The worklist postcondition at the concrete starting state used by
`nfaToDfa`. -/
theorem dfaLoopRes_spec (nfa : Automaton) :
    ((keyOf [nfa.start], [nfa.start]) ∈ (dfaLoopRes nfa).1) ∧
      LoopInv nfa [] (dfaLoopRes nfa).1 (dfaLoopRes nfa).2 := by
  have hinv : LoopInv nfa [[nfa.start]] [(keyOf [nfa.start], [nfa.start])] [] := by
    refine ⟨?_, ?_, ?_, ?_, ?_, ?_, ?_, ?_⟩
    · simp [objKeys]
    · intro p hp
      rcases List.mem_singleton.1 hp with rfl
      exact ⟨rfl, List.nodup_singleton _, by simp,
        fun v hv => by
          rcases List.mem_singleton.1 hv with rfl
          exact List.mem_cons_self _ _⟩
    · intro X hX
      rcases List.mem_singleton.1 hX with rfl
      exact List.mem_singleton_self _
    · simp
    · intro X hX
      rfl
    · simp [objKeys]
    · intro k hk
      simp [objKeys] at hk
    · intro p hp
      rcases List.mem_singleton.1 hp with rfl
      exact Or.inl (List.mem_singleton_self _)
  have hone : 1 ≤ powBound nfa := Nat.one_le_two_pow
  have hfuel : ([[nfa.start]] : List (List StVal)).length +
      (powBound nfa - ([(keyOf [nfa.start], [nfa.start])] :
        List (String × List StVal)).length) ≤ dfaFuel nfa := by
    simp only [List.length_singleton]
    unfold dfaFuel
    have : powBound nfa = 2 ^ (uList nfa).dedup.length := rfl
    omega
  obtain ⟨q1, q2⟩ := nfaToDfaLoop_post nfa (dfaFuel nfa) _ _ _ hinv hfuel
  exact ⟨q1 _ (List.mem_singleton_self _), q2⟩

/-- Every transition row of the subset construction's output is stored
for a registered subset and satisfies `RowOk` and `RowClosed`. -/
theorem dfaLoopRes_rows (nfa : Automaton) {p : String × List (String × List StVal)}
    (hp : p ∈ (dfaLoopRes nfa).2) :
    ∃ S, (p.1, S) ∈ (dfaLoopRes nfa).1 ∧ RowOk nfa S p.2 ∧
      RowClosed nfa S (dfaLoopRes nfa).1 := by
  obtain ⟨_, hmk, hme, _, _, _, htrk, htrsub, hproc⟩ := dfaLoopRes_spec nfa
  have hkey : p.1 ∈ objKeys (dfaLoopRes nfa).1 :=
    htrsub _ (mem_keys_of_mem hp)
  obtain ⟨q, hq, hqk⟩ := List.mem_map.1 hkey
  rcases hproc q hq with hin | ⟨row, hrow, hok, hcl⟩
  · simp at hin
  · have hrow' : getObj (dfaLoopRes nfa).2 p.1 = some p.2 :=
      getObj_of_mem_nodup htrk hp
    rw [hqk] at hrow
    rw [hrow'] at hrow
    obtain rfl : p.2 = row := by injection hrow
    exact ⟨q.2, by rw [← hqk]; exact (Prod.mk.eta (p := q)) ▸ hq, hok, hcl⟩

/-- **C6** (confirmed).  For every NFA input, every state of the
automaton returned by `nfaToDfa` has at most one destination per
symbol: each stored transition entry is an array of length 0 or 1. -/
theorem C6_subset_output_deterministic (nfa : Automaton) :
    Deterministic (nfaToDfa nfa) := by
  intro p hp q hq
  have hp' : p ∈ (dfaLoopRes nfa).2 := hp
  obtain ⟨S, _, ⟨hnd, hsub, hval⟩, _⟩ := dfaLoopRes_rows nfa hp'
  have hqk : q.1 ∈ nfa.alphabet := hsub _ (mem_keys_of_mem hq)
  have hq' : getObj p.2 q.1 = some q.2 := getObj_of_mem_nodup hnd hq
  rw [hval q.1 hqk] at hq'
  have hval2 : q.2 = rowVal nfa S q.1 := by
    injection hq' with h
    exact h.symm
  rw [hval2, rowVal_def]
  by_cases he : (nfaStep nfa S q.1).isEmpty
  · rw [if_pos he]
    simp
  · rw [if_neg he]
    simp

/-- Witness for C6 at the scenario NFA: the transition entry of the
start state on symbol `a` in the converted DFA. -/
theorem C6_subset_output_deterministic_witness :
    (("q1", [("a", [some "q1,q2"]), ("b", [some "q1"])]) ∈
        (nfaToDfa exScenario).transitions ∧
      ("a", [some "q1,q2"]) ∈ [("a", [some "q1,q2"]), ("b", [some "q1"])]) ∧
      ([some "q1,q2"] : List StVal).length ≤ 1 :=
  ⟨⟨by decide, by decide⟩,
    C6_subset_output_deterministic exScenario
      ("q1", [("a", [some "q1,q2"]), ("b", [some "q1"])]) (by decide)
      ("a", [some "q1,q2"]) (by decide)⟩

/-- Referential integrity of the subset construction's output, for any
input NFA. -/
theorem nfaToDfa_integrity (nfa : Automaton) : Integrity (nfaToDfa nfa) := by
  obtain ⟨hstartm, hmk, hme, _, _, _, htrk, htrsub, hproc⟩ := dfaLoopRes_spec nfa
  refine ⟨⟨keyOf [nfa.start], rfl, ?_⟩, ?_, ?_⟩
  · exact List.mem_map.2 ⟨_, hstartm, rfl⟩
  · intro x hx
    simp only [nfaToDfa] at hx ⊢
    obtain ⟨q, hq, hqk⟩ := List.mem_map.1 hx
    exact List.mem_map.2 ⟨q, List.mem_of_mem_filter hq, hqk⟩
  · intro p hp
    have hp' : p ∈ (dfaLoopRes nfa).2 := hp
    obtain ⟨S, hSm, ⟨hnd, hsub, hval⟩, hcl⟩ := dfaLoopRes_rows nfa hp'
    constructor
    · exact List.mem_map.2 ⟨(p.1, S), hSm, rfl⟩
    · intro q hq v hv
      have hqk : q.1 ∈ nfa.alphabet := hsub _ (mem_keys_of_mem hq)
      have hq' : getObj p.2 q.1 = some q.2 := getObj_of_mem_nodup hnd hq
      rw [hval q.1 hqk] at hq'
      have hval2 : q.2 = rowVal nfa S q.1 := by
        injection hq' with h
        exact h.symm
      rw [hval2, rowVal_def] at hv
      by_cases he : (nfaStep nfa S q.1).isEmpty
      · rw [if_pos he] at hv
        simp at hv
      · rw [if_neg he] at hv
        rcases List.mem_singleton.1 hv with rfl
        refine ⟨keyOf (nfaStep nfa S q.1), rfl, ?_⟩
        have hne : nfaStep nfa S q.1 ≠ [] := by
          intro h0
          rw [h0] at he
          simp at he
        exact hcl q.1 hqk hne

/-! ## C1: language preservation of the subset construction -/

theorem entry_unique {o : List (String × α)} (hnd : (objKeys o).Nodup)
    {k : String} {a b : α} (ha : (k, a) ∈ o) (hb : (k, b) ∈ o) : a = b :=
  Option.some_injective _
    ((getObj_of_mem_nodup hnd ha).symm.trans (getObj_of_mem_nodup hnd hb))

theorem pure_eq_map_filterMap {P : List StVal} (h : ∀ v ∈ P, valOk v) :
    P = (P.filterMap id).map some := by
  induction P with
  | nil => rfl
  | cons v P ih =>
      cases v with
      | none => exact absurd (h none (List.mem_cons_self _ _)) (fun hc => hc)
      | some s =>
          simp only [List.filterMap_cons, id, List.map_cons]
          rw [← ih (fun v hv => h v (List.mem_cons_of_mem _ hv))]

theorem keyOf_inj_stval {P Q : List StVal} (hPnd : P.Nodup) (hQnd : Q.Nodup)
    (hPne : P ≠ []) (hQne : Q ≠ [])
    (hP : ∀ v ∈ P, valOk v) (hQ : ∀ v ∈ Q, valOk v)
    (h : keyOf P = keyOf Q) : ∀ v, v ∈ P ↔ v ∈ Q := by
  have hPm := pure_eq_map_filterMap hP
  have hQm := pure_eq_map_filterMap hQ
  have hfPne : P.filterMap id ≠ [] := by
    intro h0
    rw [hPm, h0] at hPne
    exact hPne rfl
  have hfQne : Q.filterMap id ≠ [] := by
    intro h0
    rw [hQm, h0] at hQne
    exact hQne rfl
  have hcfP : ∀ x ∈ P.filterMap id, ',' ∉ x.data := by
    intro x hx
    have := hP (some x) (mem_filterMap_id_iff.1 hx)
    exact this
  have hcfQ : ∀ x ∈ Q.filterMap id, ',' ∉ x.data := by
    intro x hx
    have := hQ (some x) (mem_filterMap_id_iff.1 hx)
    exact this
  have hkeys : keyOf ((P.filterMap id).map some) = keyOf ((Q.filterMap id).map some) := by
    rw [← hPm, ← hQm]
    exact h
  have hmem := keyOf_inj hfPne hfQne hcfP hcfQ hkeys
  intro v
  cases v with
  | none =>
      constructor
      · intro hv
        exact absurd (hP none hv) (fun hc => hc)
      · intro hv
        exact absurd (hQ none hv) (fun hc => hc)
  | some s =>
      rw [← mem_filterMap_id_iff, ← mem_filterMap_id_iff]
      exact hmem s

theorem keyOf_singleton (s : String) : keyOf [some s] = s := rfl

/-- The one transition lookup of the constructed DFA: from a registered
subset's key on an alphabet symbol, the stored destination array is
`rowVal`. -/
theorem dfa_movesOf (nfa : Automaton) {k : String} {S' : List StVal}
    (hm : (k, S') ∈ (dfaLoopRes nfa).1) {ch : String}
    (hch : ch ∈ nfa.alphabet) :
    movesOf (nfaToDfa nfa) (some k) ch = rowVal nfa S' ch := by
  obtain ⟨_, hmk, hme, _, _, _, htrk, htrsub, hproc⟩ := dfaLoopRes_spec nfa
  rcases hproc _ hm with hin | ⟨row, hrow, ⟨hnd, hsub, hval⟩, _⟩
  · simp at hin
  · unfold movesOf
    have htr : getObj (nfaToDfa nfa).transitions (jsKey (some k)) = some row := hrow
    rw [htr]
    simp only [Option.getD_some]
    rw [hval ch hch]
    rfl

/-- The stored subset bearing the key of a nonempty well-named subset
has exactly its members. -/
theorem stored_subset_members (nfa : Automaton)
    (hpcf : ∀ v ∈ uList nfa, valOk v) {T : List StVal}
    (hTnd : T.Nodup) (hTne : T ≠ []) (hTU : ∀ v ∈ T, v ∈ uList nfa)
    {S'' : List StVal} (hm : (keyOf T, S'') ∈ (dfaLoopRes nfa).1) :
    ∀ v, v ∈ S'' ↔ v ∈ T := by
  obtain ⟨_, hmk, hme, _, _, _, _, _, _⟩ := dfaLoopRes_spec nfa
  have hok := hme _ hm
  exact keyOf_inj_stval hok.2.1 hTnd hok.2.2.1 hTne
    (fun v hv => hpcf v (hok.2.2.2 v hv)) (fun v hv => hpcf v (hTU v hv))
    hok.1.symm

theorem nfaStep_congr {nfa : Automaton} {C C' : List StVal}
    (h : ∀ v, v ∈ C' ↔ v ∈ C) (ch : String) :
    ∀ v, v ∈ nfaStep nfa C' ch ↔ v ∈ nfaStep nfa C ch := by
  intro v
  rw [mem_nfaStep, mem_nfaStep]
  constructor
  · rintro ⟨s, hs, hv⟩
    exact ⟨s, (h s).1 hs, hv⟩
  · rintro ⟨s, hs, hv⟩
    exact ⟨s, (h s).2 hs, hv⟩

theorem eq_nil_iff_of_mem_iff {C C' : List StVal} (h : ∀ v, v ∈ C' ↔ v ∈ C) :
    C' = [] ↔ C = [] := by
  rw [List.eq_nil_iff_forall_not_mem, List.eq_nil_iff_forall_not_mem]
  constructor
  · intro h0 v hv
    exact h0 v ((h v).2 hv)
  · intro h0 v hv
    exact h0 v ((h v).1 hv)

/-- The simulation: running the constructed DFA's set evaluator from a
registered subset key agrees with running the NFA's set evaluator from
the subset itself. -/
theorem subsetRun_agree (nfa : Automaton)
    (hpcf : ∀ v ∈ uList nfa, valOk v) :
    ∀ (w : List String), (∀ ch ∈ w, ch ∈ nfa.alphabet) →
    ∀ (C S' : List StVal), C.Nodup → C ≠ [] → (∀ v ∈ C, v ∈ uList nfa) →
      (keyOf C, S') ∈ (dfaLoopRes nfa).1 →
      (∀ v, v ∈ S' ↔ v ∈ C) →
      (acceptsNRun (nfaToDfa nfa) w [some (keyOf C)]).accepted =
        (acceptsNRun nfa w C).accepted := by
  intro w
  induction w with
  | nil =>
      intro _ C S' hCnd hCne hCU hm hmem
      obtain ⟨_, hmk, hme, _, _, _, _, _, hproc⟩ := dfaLoopRes_spec nfa
      simp only [acceptsNRun, List.any_cons, List.any_nil, Bool.or_false]
      have haccdef : (nfaToDfa nfa).accept =
          ((dfaLoopRes nfa).1.filter
            (fun p => p.2.any (fun s => acceptsMem nfa.accept s))).map (·.1) := rfl
      have hacc : acceptsMem (nfaToDfa nfa).accept (some (keyOf C)) =
          C.any (fun s => acceptsMem nfa.accept s) := by
        refine Bool.coe_iff_coe.1 ?_
        have hshow : acceptsMem (nfaToDfa nfa).accept (some (keyOf C)) =
            ((nfaToDfa nfa).accept).contains (keyOf C) := rfl
        rw [hshow]
        constructor
        · intro hc
          have hmemk : keyOf C ∈ (nfaToDfa nfa).accept := by simpa using hc
          rw [haccdef] at hmemk
          obtain ⟨p, hp, hpk⟩ := List.mem_map.1 hmemk
          have hpfil := List.mem_filter.1 hp
          have hpm : ((keyOf C : String), p.2) ∈ (dfaLoopRes nfa).1 := by
            rw [← hpk]
            exact (Prod.mk.eta (p := p)) ▸ hpfil.1
          have hSeq : p.2 = S' := entry_unique hmk hpm hm
          obtain ⟨v, hv, hvacc⟩ := List.any_eq_true.1 hpfil.2
          rw [hSeq] at hv
          rw [List.any_eq_true]
          exact ⟨v, (hmem v).1 hv, hvacc⟩
        · intro hC
          obtain ⟨v, hv, hvacc⟩ := List.any_eq_true.1 hC
          have hk : keyOf C ∈ (nfaToDfa nfa).accept := by
            rw [haccdef]
            refine List.mem_map.2 ⟨(keyOf C, S'), ?_, rfl⟩
            refine List.mem_filter.2 ⟨hm, ?_⟩
            rw [List.any_eq_true]
            exact ⟨v, (hmem v).2 hv, hvacc⟩
          simpa using hk
      rw [hacc]
  | cons ch rest ih =>
      intro hw C S' hCnd hCne hCU hm hmem
      have hch : ch ∈ nfa.alphabet := hw ch (List.mem_cons_self _ _)
      have hrest : ∀ c ∈ rest, c ∈ nfa.alphabet :=
        fun c hc => hw c (List.mem_cons_of_mem _ hc)
      have hmoves : movesOf (nfaToDfa nfa) (some (keyOf C)) ch = rowVal nfa S' ch :=
        dfa_movesOf nfa hm hch
      have hlen : (movesOf (nfaToDfa nfa) (some (keyOf C)) ch).length ≤ 1 := by
        rw [hmoves, rowVal_def]
        by_cases he : (nfaStep nfa S' ch).isEmpty
        · rw [if_pos he]
          simp
        · rw [if_neg he]
          simp
      have hstep1 : nfaStep (nfaToDfa nfa) [some (keyOf C)] ch = rowVal nfa S' ch := by
        rw [nfaStep_singleton _ _ _ hlen, hmoves]
      have hTcongr := @nfaStep_congr nfa _ _ hmem ch
      have hTkey : keyOf (nfaStep nfa S' ch) = keyOf (nfaStep nfa C ch) :=
        keyOf_congr_stval (nfaStep_nodup _ _ _) (nfaStep_nodup _ _ _) hTcongr
      simp only [acceptsNRun]
      rw [hstep1, rowVal_def]
      by_cases he : (nfaStep nfa S' ch).isEmpty
      · rw [if_pos he]
        have hTe : nfaStep nfa C ch = [] := by
          rw [← eq_nil_iff_of_mem_iff hTcongr]
          exact List.isEmpty_iff.1 he
        rw [show (nfaStep nfa C ch).isEmpty = true by rw [hTe]; rfl]
        simp
      · rw [if_neg he]
        have hT'ne : nfaStep nfa S' ch ≠ [] := by
          intro h0
          rw [h0] at he
          exact he rfl
        have hTne : nfaStep nfa C ch ≠ [] := by
          intro h0
          exact hT'ne ((eq_nil_iff_of_mem_iff hTcongr).2 h0)
        have hTisEmpty : (nfaStep nfa C ch).isEmpty = false := by
          cases h0 : nfaStep nfa C ch with
          | nil => exact absurd h0 hTne
          | cons a l => rfl
        rw [hTisEmpty]
        simp only [List.isEmpty_cons, Bool.false_eq_true, if_false]
        -- the registered subset for the successor
        obtain ⟨_, hmk, hme, _, _, _, _, _, hproc⟩ := dfaLoopRes_spec nfa
        rcases hproc _ hm with hin | ⟨row, hrow, hok, hcl⟩
        · simp at hin
        · have hreg : keyOf (nfaStep nfa S' ch) ∈ objKeys (dfaLoopRes nfa).1 :=
            hcl ch hch hT'ne
          obtain ⟨p, hp, hpk⟩ := List.mem_map.1 hreg
          have hpm : ((keyOf (nfaStep nfa C ch) : String), p.2) ∈ (dfaLoopRes nfa).1 := by
            rw [← hTkey, ← hpk]
            exact (Prod.mk.eta (p := p)) ▸ hp
          have hTU : ∀ v ∈ nfaStep nfa C ch, v ∈ uList nfa :=
            fun v hv => nfaStep_subset_uList hv
          have hmem' : ∀ v, v ∈ p.2 ↔ v ∈ nfaStep nfa C ch :=
            stored_subset_members nfa hpcf (nfaStep_nodup _ _ _) hTne hTU hpm
          have hrec := ih hrest (nfaStep nfa C ch) p.2 (nfaStep_nodup _ _ _)
            hTne hTU hpm hmem'
          rw [← hTkey] at hrec
          exact hrec

/-- **C1** (amended).  For every epsilon-free NFA with a defined start
state whose start and transition-destination identifiers are strings
free of commas, the subset construction preserves the acceptance
verdict of the set-based evaluator on every input string. -/
theorem C1_subset_construction_equiv_amended (nfa : Automaton) (s₀ : String)
    (hstart : nfa.start = some s₀)
    (hpcf : ∀ v ∈ uList nfa, valOk v) (w : List String) :
    (acceptsN (nfaToDfa nfa) w).accepted = (acceptsN nfa w).accepted := by
  have halpha : (nfaToDfa nfa).alphabet = nfa.alphabet := rfl
  unfold acceptsN
  rw [halpha]
  cases hf : w.find? (fun ch => !(nfa.alphabet.contains ch)) with
  | some c => rfl
  | none =>
      have hall : ∀ ch ∈ w, ch ∈ nfa.alphabet := by
        intro ch hch
        have := List.find?_eq_none.1 hf ch hch
        simpa using this
      have hdstart : (nfaToDfa nfa).start = some (keyOf [nfa.start]) := rfl
      have hkey : keyOf [nfa.start] = s₀ := by
        rw [hstart]
        exact keyOf_singleton s₀
      have hsf : startFalsy (nfaToDfa nfa).start = startFalsy nfa.start := by
        rw [hdstart, hkey, hstart]
      rw [hsf]
      by_cases hfal : startFalsy nfa.start = true
      · rw [if_pos hfal, if_pos hfal]
      · rw [if_neg hfal, if_neg hfal]
        have hstart_mem := (dfaLoopRes_spec nfa).1
        have := subsetRun_agree nfa hpcf w hall [nfa.start] [nfa.start]
          (List.nodup_singleton _) (by simp)
          (fun v hv => by
            rcases List.mem_singleton.1 hv with rfl
            exact List.mem_cons_self _ _)
          hstart_mem (fun v => Iff.rfl)
        rw [hdstart]
        exact this

/-- Witness for C1 at the scenario NFA of the specification. -/
theorem C1_subset_construction_equiv_witness :
    exScenario.start = some "q1" ∧ (∀ v ∈ uList exScenario, valOk v) ∧
      (acceptsN (nfaToDfa exScenario) ["a"]).accepted =
        (acceptsN exScenario ["a"]).accepted :=
  ⟨rfl, by decide,
    C1_subset_construction_equiv_amended exScenario "q1" rfl (by decide) ["a"]⟩

/-- Counterexample to C1 as stated: on the NFA `exComma`, whose state
`"a,b"` contains a comma, the subsets `{a,b}` and `{"a,b"}` collide in
`keyOf`, and the converted DFA rejects the string `"y"` that the NFA
accepts. -/
theorem C1_subset_construction_counterexample :
    (acceptsN exComma ["y"]).accepted = true ∧
      (acceptsN (nfaToDfa exComma) ["y"]).accepted = false :=
  ⟨by decide, by decide⟩

/-! ## C3: the flat signature string is ambiguous -/

/-- **C3** (code bug).  The acyclic deterministic automaton
`exSigCollide` accepts the string `"ec"`, but the automaton returned by
`minimizeAcyclicDFA` rejects it: the flat signature strings of the
inequivalent states `x` (right language `{ab, ac}`) and `y` (right
language `{ab, c}`) coincide — both render as `"0|a>0|b>1|,c>1|"` —
so the minimizer merges them, contradicting the code's own
documentation that only states with identical right languages are
merged. -/
theorem C3_minimize_language_bug :
    sigOf exSigCollide (some "x") = sigOf exSigCollide (some "y") ∧
      (acceptsD exSigCollide ["e", "c"]).accepted = true ∧
      (acceptsD (minimizeAcyclicDFA exSigCollide) ["e", "c"]).accepted = false :=
  ⟨by decide, by decide, by decide⟩

/-! ## Trie correctness -/

theorem dval_dchar : ∀ d : Nat, d < 10 → dval (dchar d) = d := by
  decide

theorem digsVal_append (l : List Char) (c : Char) :
    digsVal (l ++ [c]) = 10 * digsVal l + dval c := by
  unfold digsVal
  rw [List.foldl_append]
  rfl

theorem digsVal_digsF : ∀ (fuel n : Nat), n < fuel → digsVal (digsF fuel n) = n := by
  intro fuel
  induction fuel with
  | zero =>
      intro n h
      omega
  | succ fuel ih =>
      intro n h
      by_cases h10 : n < 10
      · rw [digsF, if_pos h10]
        show 10 * 0 + dval (dchar n) = n
        rw [dval_dchar n h10]
        omega
      · rw [digsF, if_neg h10]
        rw [digsVal_append]
        have hlt : n / 10 < fuel := by
          have := Nat.div_lt_self (show 0 < n by omega) (show 1 < 10 by omega)
          omega
        rw [ih (n / 10) hlt]
        rw [dval_dchar _ (Nat.mod_lt _ (by omega))]
        omega

theorem digsVal_digs (n : Nat) : digsVal (digs n) = n :=
  digsVal_digsF (n + 1) n (by omega)

theorem natToStr_inj {a b : Nat} (h : natToStr a = natToStr b) : a = b := by
  have hd : digs a = digs b := congrArg String.data h
  rw [← digsVal_digs a, ← digsVal_digs b, hd]

theorem qid_inj {a b : Nat} (h : qid a = qid b) : a = b := by
  unfold qid at h
  have hd := congrArg String.data h
  rw [String.data_append, String.data_append] at hd
  have h2 : (natToStr a).data = (natToStr b).data := List.append_cancel_left hd
  exact natToStr_inj (string_data_inj h2)

theorem qid_zero : qid 0 = "q0" := by decide

theorem ExtendsE_refl (nodes : List (String × TrieNode)) : ExtendsE nodes nodes :=
  fun _ nd h => ⟨nd, h, rfl, fun _ _ he => he⟩

theorem ExtendsE_trans {a b c : List (String × TrieNode)}
    (h1 : ExtendsE a b) (h2 : ExtendsE b c) : ExtendsE a c := by
  intro v nd h
  obtain ⟨nd', hb, hf, he⟩ := h1 v nd h
  obtain ⟨nd'', hc, hf', he'⟩ := h2 v nd' hb
  exact ⟨nd'', hc, hf'.trans hf, fun ch nx hx => he' ch nx (he ch nx hx)⟩

theorem follow_cons {nodes : List (String × TrieNode)} {x c : String}
    {rest : List String} {nd : TrieNode} {nx : String}
    (hx : getObj nodes x = some nd) (hc : getObj nd.edges c = some nx) :
    follow nodes x (c :: rest) = follow nodes nx rest := by
  simp only [follow, hx, hc]

theorem follow_cons_noNode {nodes : List (String × TrieNode)} {x c : String}
    {rest : List String} (hx : getObj nodes x = none) :
    follow nodes x (c :: rest) = none := by
  simp only [follow, hx]

theorem follow_cons_noEdge {nodes : List (String × TrieNode)} {x c : String}
    {rest : List String} {nd : TrieNode}
    (hx : getObj nodes x = some nd) (hc : getObj nd.edges c = none) :
    follow nodes x (c :: rest) = none := by
  simp only [follow, hx, hc]

theorem follow_mono {nodes nodes' : List (String × TrieNode)}
    (hext : ExtendsE nodes nodes') :
    ∀ (w : List String) (x y : String), follow nodes x w = some y →
      follow nodes' x w = some y := by
  intro w
  induction w with
  | nil =>
      intro x y h
      exact h
  | cons c rest ih =>
      intro x y h
      rcases hx : getObj nodes x with _ | nd
      · rw [follow_cons_noNode hx] at h
        exact absurd h (by simp)
      · rcases hc : getObj nd.edges c with _ | nx
        · rw [follow_cons_noEdge hx hc] at h
          exact absurd h (by simp)
        · rw [follow_cons hx hc] at h
          obtain ⟨nd', hb, _, he⟩ := hext x nd hx
          rw [follow_cons hb (he c nx hc)]
          exact ih nx y h

theorem follow_append (nodes : List (String × TrieNode)) :
    ∀ (p q : List String) (x : String),
      follow nodes x (p ++ q) = (follow nodes x p).bind (fun v => follow nodes v q) := by
  intro p
  induction p with
  | nil =>
      intro q x
      rfl
  | cons c rest ih =>
      intro q x
      rcases hx : getObj nodes x with _ | nd
      · rw [show (c :: rest) ++ q = c :: (rest ++ q) from rfl,
          follow_cons_noNode hx, follow_cons_noNode hx]
        rfl
      · rcases hc : getObj nd.edges c with _ | nx
        · rw [show (c :: rest) ++ q = c :: (rest ++ q) from rfl,
            follow_cons_noEdge hx hc, follow_cons_noEdge hx hc]
          rfl
        · rw [show (c :: rest) ++ q = c :: (rest ++ q) from rfl,
            follow_cons hx hc, follow_cons hx hc]
          exact ih q nx

theorem follow_target_mem {nodes : List (String × TrieNode)}
    (htgt : ∀ p ∈ nodes, ∀ e ∈ p.2.edges, (getObj nodes e.2).isSome) :
    ∀ (w : List String) (x y : String), (getObj nodes x).isSome →
      follow nodes x w = some y → (getObj nodes y).isSome := by
  intro w
  induction w with
  | nil =>
      intro x y hx h
      obtain rfl : x = y := by injection h
      exact hx
  | cons c rest ih =>
      intro x y hx h
      rcases hgx : getObj nodes x with _ | nd
      · rw [follow_cons_noNode hgx] at h
        exact absurd h (by simp)
      · rcases hc : getObj nd.edges c with _ | nx
        · rw [follow_cons_noEdge hgx hc] at h
          exact absurd h (by simp)
        · rw [follow_cons hgx hc] at h
          have hnx : (getObj nodes nx).isSome :=
            htgt _ (getObj_mem hgx) _ (getObj_mem hc)
          exact ih nx y hnx h

theorem follow_final_invariant {nodes : List (String × TrieNode)}
    {v : String} {nd : TrieNode} (hv : getObj nodes v = some nd) (b : Bool) :
    ∀ (w : List String) (x : String),
      follow (setObj nodes v ⟨nd.edges, b⟩) x w = follow nodes x w := by
  intro w
  induction w with
  | nil =>
      intro x
      rfl
  | cons c rest ih =>
      intro x
      by_cases hx : v = x
      · subst hx
        rcases hc : getObj nd.edges c with _ | nx
        · rw [follow_cons_noEdge (getObj_setObj_self nodes v ⟨nd.edges, b⟩) hc,
            follow_cons_noEdge hv hc]
        · rw [follow_cons (getObj_setObj_self nodes v ⟨nd.edges, b⟩) hc,
            follow_cons hv hc]
          exact ih nx
      · have hget : getObj (setObj nodes v ⟨nd.edges, b⟩) x = getObj nodes x :=
          getObj_setObj_ne nodes _ hx
        rcases hgx : getObj nodes x with _ | nd'
        · rw [follow_cons_noNode (hget.trans hgx), follow_cons_noNode hgx]
        · rcases hc : getObj nd'.edges c with _ | nx
          · rw [follow_cons_noEdge (hget.trans hgx) hc, follow_cons_noEdge hgx hc]
          · rw [follow_cons (hget.trans hgx) hc, follow_cons hgx hc]
            exact ih nx

theorem insChar_hit {n : Nat} {nodes : List (String × TrieNode)} {v ch nx : String}
    {nd : TrieNode} (hv : getObj nodes v = some nd)
    (hc : getObj nd.edges ch = some nx) (hnx : (getObj nodes nx).isSome) :
    insChar (n, nodes, v) ch = (n, nodes, nx) := by
  unfold insChar ensureN
  simp only [hv, Option.isSome_some, if_pos, Option.getD_some, hc, hnx, if_true]

theorem insChar_miss {n : Nat} {nodes : List (String × TrieNode)} {v ch : String}
    {nd : TrieNode} (hv : getObj nodes v = some nd)
    (hc : getObj nd.edges ch = none) (hfresh : getObj nodes (qid n) = none) :
    insChar (n, nodes, v) ch =
      (n + 1, setObj nodes v ⟨nd.edges ++ [(ch, qid n)], nd.final⟩ ++
        [(qid n, ⟨[], false⟩)], qid n) := by
  have hne : v ≠ qid n := by
    intro h
    rw [h, hfresh] at hv
    exact Option.noConfusion hv
  have hfresh2 : getObj (setObj nodes v ⟨nd.edges ++ [(ch, qid n)], nd.final⟩)
      (qid n) = none := by
    rw [getObj_setObj_ne nodes _ hne]
    exact hfresh
  unfold insChar ensureN
  simp only [show ("q" ++ natToStr n) = qid n from rfl, hv, Option.isSome_some,
    if_pos, Option.getD_some, hc, hfresh2, Option.isSome_none,
    Bool.false_eq_true, if_false]

theorem getObj_insB_new {nodes : List (String × TrieNode)} {v : String}
    {n : Nat} (X : TrieNode)
    (hne : v ≠ qid n) (hfresh : getObj nodes (qid n) = none) :
    getObj (setObj nodes v X ++ [(qid n, ⟨[], false⟩)]) (qid n) =
      some ⟨[], false⟩ := by
  rw [getObj_append_right]
  · simp [getObj]
  · rw [getObj_setObj_ne nodes _ hne]
    exact hfresh

theorem getObj_insB_v {nodes : List (String × TrieNode)} {v : String}
    {n : Nat} (X Y : TrieNode) :
    getObj (setObj nodes v X ++ [(qid n, Y)]) v = some X := by
  rw [getObj_append_left]
  · exact getObj_setObj_self nodes v X
  · rw [getObj_setObj_self nodes v X]
    rfl

theorem getObj_insB_other {nodes : List (String × TrieNode)} {v x : String}
    (X Y : TrieNode) {n : Nat} (hxv : v ≠ x) (hxn : x ≠ qid n) :
    getObj (setObj nodes v X ++ [(qid n, Y)]) x = getObj nodes x := by
  have h1 : getObj (setObj nodes v X) x = getObj nodes x :=
    getObj_setObj_ne nodes X hxv
  cases hgx : getObj nodes x with
  | none =>
      rw [getObj_append_right _ (h1.trans hgx)]
      have hq : ¬ qid n = x := fun h => hxn h.symm
      simp [getObj, hq]
  | some ndx =>
      rw [getObj_append_left _ (by rw [h1, hgx]; rfl)]
      exact h1.trans hgx

theorem extendsE_insB {nodes : List (String × TrieNode)} {v ch : String}
    {n : Nat} {nd : TrieNode} (hv : getObj nodes v = some nd)
    (hfresh : getObj nodes (qid n) = none) :
    ExtendsE nodes (setObj nodes v ⟨nd.edges ++ [(ch, qid n)], nd.final⟩ ++
      [(qid n, ⟨[], false⟩)]) := by
  intro x ndx hx
  by_cases hxv : x = v
  · subst hxv
    have hnd : ndx = nd := by
      rw [hv] at hx
      injection hx with h
      exact h.symm
    subst hnd
    refine ⟨⟨ndx.edges ++ [(ch, qid n)], ndx.final⟩, getObj_insB_v _ _, rfl, ?_⟩
    intro ch' nx' hx'
    show getObj (ndx.edges ++ [(ch, qid n)]) ch' = some nx'
    rw [getObj_append_left _ (by rw [hx']; rfl)]
    exact hx' 
  · have hxn : x ≠ qid n := by
      intro h
      rw [h, hfresh] at hx
      exact Option.noConfusion hx
    exact ⟨ndx, (getObj_insB_other _ _ (fun h => hxv h.symm) hxn).trans hx, rfl,
      fun _ _ he => he⟩

theorem followB_new {nodes : List (String × TrieNode)} {v ch : String}
    {n : Nat} {nd : TrieNode}
    (hv : getObj nodes v = some nd) (hc : getObj nd.edges ch = none)
    (hfresh : getObj nodes (qid n) = none)
    (htgt : ∀ p ∈ nodes, ∀ e ∈ p.2.edges, (getObj nodes e.2).isSome) :
    ∀ (w : List String) (x y : String), (getObj nodes x).isSome →
      follow (setObj nodes v ⟨nd.edges ++ [(ch, qid n)], nd.final⟩ ++
        [(qid n, ⟨[], false⟩)]) x w = some y →
      follow nodes x w = some y ∨
        (y = qid n ∧ ∃ w₁, w = w₁ ++ [ch] ∧ follow nodes x w₁ = some v) := by
  have hne : v ≠ qid n := by
    intro h
    rw [h, hfresh] at hv
    exact Option.noConfusion hv
  intro w
  induction w with
  | nil =>
      intro x y hx h
      exact Or.inl h
  | cons c rest ih =>
      intro x y hx h
      obtain ⟨ndx, hgx⟩ := Option.isSome_iff_exists.1 hx
      by_cases hxv : x = v
      · subst hxv
        have hnd : ndx = nd := by
          rw [hv] at hgx
          injection hgx with h'
          exact h'.symm
        subst hnd
        by_cases hcch : c = ch
        · subst hcch
          have hlook : getObj (ndx.edges ++ [(c, qid n)]) c = some (qid n) := by
            rw [getObj_append_right _ hc]
            simp [getObj]
          rw [follow_cons (getObj_insB_v _ _) hlook] at h
          cases rest with
          | nil =>
              refine Or.inr ⟨?_, [], rfl, rfl⟩
              injection h with h'
              exact h'.symm
          | cons c' rest' =>
              rw [follow_cons_noEdge
                (getObj_insB_new _ hne hfresh) (by rfl)] at h
              exact absurd h (by simp)
        · rcases hcx : getObj ndx.edges c with _ | nx
          · have hlook : getObj (ndx.edges ++ [(ch, qid n)]) c = none := by
              rw [getObj_append_right _ hcx]
              have hq : ¬ ch = c := fun h => hcch h.symm
              simp [getObj, hq]
            rw [follow_cons_noEdge (getObj_insB_v _ _) hlook] at h
            exact absurd h (by simp)
          · have hlook : getObj (ndx.edges ++ [(ch, qid n)]) c = some nx := by
              rw [getObj_append_left _ (by rw [hcx]; rfl)]
              exact hcx
            rw [follow_cons (getObj_insB_v _ _) hlook] at h
            have hnx : (getObj nodes nx).isSome :=
              htgt _ (getObj_mem hv) _ (getObj_mem hcx)
            rcases ih nx y hnx h with hl | ⟨rfl, w₁, rfl, hfol⟩
            · exact Or.inl (by rw [follow_cons hv hcx]; exact hl)
            · refine Or.inr ⟨rfl, c :: w₁, rfl, ?_⟩
              rw [follow_cons hv hcx]
              exact hfol
      · have hxn : x ≠ qid n := by
          intro h'
          rw [h', hfresh] at hgx
          exact Option.noConfusion hgx
        have hgx' : getObj (setObj nodes v ⟨nd.edges ++ [(ch, qid n)], nd.final⟩ ++
            [(qid n, ⟨[], false⟩)]) x = some ndx :=
          (getObj_insB_other _ _ (fun h' => hxv h'.symm) hxn).trans hgx
        rcases hcx : getObj ndx.edges c with _ | nx
        · rw [follow_cons_noEdge hgx' hcx] at h
          exact absurd h (by simp)
        · rw [follow_cons hgx' hcx] at h
          have hnx : (getObj nodes nx).isSome :=
            htgt _ (getObj_mem hgx) _ (getObj_mem hcx)
          rcases ih nx y hnx h with hl | ⟨rfl, w₁, rfl, hfol⟩
          · exact Or.inl (by rw [follow_cons hgx hcx]; exact hl)
          · refine Or.inr ⟨rfl, c :: w₁, rfl, ?_⟩
            rw [follow_cons hgx hcx]
            exact hfol

theorem mem_setObj {o : List (String × α)} {k : String} {val : α} {p : String × α}
    (hmem : p ∈ setObj o k val) : p = (k, val) ∨ p ∈ o := by
  induction o with
  | nil =>
      simp only [setObj, List.mem_singleton] at hmem
      exact Or.inl hmem
  | cons q rest ih =>
      cases q with
      | mk k' v' =>
          by_cases hk : k' = k
          · simp only [setObj, if_pos hk, List.mem_cons] at hmem
            rcases hmem with h | h
            · exact Or.inl h
            · exact Or.inr (List.mem_cons_of_mem _ h)
          · simp only [setObj, if_neg hk, List.mem_cons] at hmem
            rcases hmem with h | h
            · exact Or.inr (List.mem_cons.2 (Or.inl h))
            · rcases ih h with h' | h'
              · exact Or.inl h'
              · exact Or.inr (List.mem_cons_of_mem _ h')

theorem finalAt_of_extends {nodes nodes' : List (String × TrieNode)}
    (hext : ExtendsE nodes nodes') {y : String} {nd : TrieNode}
    (hy : getObj nodes y = some nd) : finalAt nodes' y = finalAt nodes y := by
  obtain ⟨nd', hb, hf, _⟩ := hext y nd hy
  unfold finalAt
  rw [hy, hb]
  simp only [Option.getD_some]
  exact hf

theorem insFold_spec :
    ∀ (u : List String) (n : Nat) (nodes : List (String × TrieNode)) (v : String)
      (p : List String),
      TrieStru (n, nodes) → TrieInj nodes →
      follow nodes (qid 0) p = some v →
      TrieStru ((u.foldl insChar (n, nodes, v)).1,
        (u.foldl insChar (n, nodes, v)).2.1) ∧
      ExtendsE nodes (u.foldl insChar (n, nodes, v)).2.1 ∧
      TrieInj (u.foldl insChar (n, nodes, v)).2.1 ∧
      follow (u.foldl insChar (n, nodes, v)).2.1 (qid 0) (p ++ u) =
        some (u.foldl insChar (n, nodes, v)).2.2 ∧
      (∀ w y, follow (u.foldl insChar (n, nodes, v)).2.1 (qid 0) w = some y →
        finalAt (u.foldl insChar (n, nodes, v)).2.1 y = true →
        follow nodes (qid 0) w = some y ∧ finalAt nodes y = true) := by
  intro u
  induction u with
  | nil =>
      intro n nodes v p hstru hinj hfp
      simp only [List.foldl_nil, List.append_nil]
      exact ⟨hstru, ExtendsE_refl nodes, hinj, hfp, fun w y h1 h2 => ⟨h1, h2⟩⟩
  | cons ch u ih =>
      intro n nodes v p hstru hinj hfp
      obtain ⟨hkeys, hroot, hids, hedges⟩ := hstru
      have htgt : ∀ q ∈ nodes, ∀ e ∈ q.2.edges, (getObj nodes e.2).isSome :=
        fun q hq e he => (hedges q hq).2 e he
      have hv : (getObj nodes v).isSome :=
        follow_target_mem htgt p (qid 0) v hroot hfp
      obtain ⟨nd, hvd⟩ := Option.isSome_iff_exists.1 hv
      rcases hc : getObj nd.edges ch with _ | nx
      · -- a fresh node is allocated
        have hfresh : getObj nodes (qid n) = none := by
          cases hq : getObj nodes (qid n) with
          | none => rfl
          | some nd' =>
              obtain ⟨i, hi, hqi⟩ := hids _ (getObj_mem hq)
              exact absurd (qid_inj hqi.symm) (by omega)
        have hne : v ≠ qid n := by
          intro h
          rw [h, hfresh] at hvd
          exact Option.noConfusion hvd
        rw [List.foldl_cons, insChar_miss hvd hc hfresh]
        set nodesB := setObj nodes v ⟨nd.edges ++ [(ch, qid n)], nd.final⟩ ++
          [(qid n, ⟨[], false⟩)] with hBdef
        have hext : ExtendsE nodes nodesB := extendsE_insB hvd hfresh
        have hkeysB : objKeys nodesB = objKeys nodes ++ [qid n] := by
          rw [hBdef]
          show (setObj nodes v ⟨nd.edges ++ [(ch, qid n)], nd.final⟩ ++
            [(qid n, (⟨[], false⟩ : TrieNode))]).map (·.1) = nodes.map (·.1) ++ [qid n]
          rw [List.map_append, setObj_keys_of_mem _ (getObj_isSome_iff.1 hv)]
          rfl
        have hfreshmem : qid n ∉ objKeys nodes :=
          getObj_eq_none_iff.1 hfresh
        have hstruB : TrieStru (n + 1, nodesB) := by
          refine ⟨?_, ?_, ?_, ?_⟩
          · show (objKeys nodesB).Nodup
            rw [hkeysB]
            rw [List.nodup_append]
            exact ⟨hkeys, List.nodup_singleton _, by simpa using hfreshmem⟩
          · obtain ⟨nd0, h0⟩ := Option.isSome_iff_exists.1 hroot
            obtain ⟨nd0', h0', _, _⟩ := hext _ _ h0
            rw [h0']
            rfl
          · intro q hq
            rcases List.mem_append.1 hq with hq | hq
            · rcases mem_setObj hq with rfl | hq'
              · obtain ⟨i, hi, hqi⟩ := hids _ (getObj_mem hvd)
                exact ⟨i, by omega, hqi⟩
              · obtain ⟨i, hi, hqi⟩ := hids _ hq'
                exact ⟨i, by omega, hqi⟩
            · rcases List.mem_singleton.1 hq with rfl
              exact ⟨n, by omega, rfl⟩
          · intro q hq
            have hsome : ∀ z : String, z ∈ objKeys nodes ∨ z = qid n →
                (getObj nodesB z).isSome := by
              intro z hz
              rw [getObj_isSome_iff]
              show z ∈ objKeys nodesB
              rw [hkeysB]
              rcases hz with hz | rfl
              · exact List.mem_append_left _ hz
              · exact List.mem_append_right _ (List.mem_singleton_self _)
            rcases List.mem_append.1 hq with hq | hq
            · rcases mem_setObj hq with rfl | hq'
              · constructor
                · show ((nd.edges ++ [(ch, qid n)]).map (·.1)).Nodup
                  rw [List.map_append, List.nodup_append]
                  refine ⟨(hedges _ (getObj_mem hvd)).1, by simp, ?_⟩
                  intro a ha hmem
                  simp only [List.map_cons, List.map_nil, List.mem_singleton] at hmem
                  rw [hmem] at ha
                  exact (getObj_eq_none_iff.1 hc) ha
                · intro e he
                  rcases List.mem_append.1 he with he | he
                  · refine hsome e.2 (Or.inl ?_)
                    exact getObj_isSome_iff.1 ((hedges _ (getObj_mem hvd)).2 e he)
                  · rcases List.mem_singleton.1 he with rfl
                    exact hsome _ (Or.inr rfl)
              · constructor
                · exact (hedges _ hq').1
                · intro e he
                  refine hsome e.2 (Or.inl ?_)
                  exact getObj_isSome_iff.1 ((hedges _ hq').2 e he)
            · rcases List.mem_singleton.1 hq with rfl
              exact ⟨List.nodup_nil, fun e he => absurd he (by simp)⟩
        have hinjB : TrieInj nodesB := by
          intro w w' y h1 h2
          rcases followB_new hvd hc hfresh htgt w _ y hroot h1 with ha | ⟨hy, w1, hw1, hf1⟩
          · rcases followB_new hvd hc hfresh htgt w' _ y hroot h2 with hb | ⟨hy', w2, hw2, hf2⟩
            · exact hinj w w' y ha hb
            · exfalso
              rw [hy'] at ha
              have := follow_target_mem htgt w _ _ hroot ha
              rw [hfresh] at this
              exact Bool.noConfusion this
          · rcases followB_new hvd hc hfresh htgt w' _ y hroot h2 with hb | ⟨hy', w2, hw2, hf2⟩
            · exfalso
              rw [hy] at hb
              have := follow_target_mem htgt w' _ _ hroot hb
              rw [hfresh] at this
              exact Bool.noConfusion this
            · rw [hw1, hw2, hinj w1 w2 v hf1 hf2]
        have hfolB : follow nodesB (qid 0) (p ++ [ch]) = some (qid n) := by
          rw [follow_append]
          rw [follow_mono hext p _ _ hfp]
          show follow nodesB v [ch] = some (qid n)
          have hvB : getObj nodesB v =
              some ⟨nd.edges ++ [(ch, qid n)], nd.final⟩ := getObj_insB_v _ _
          have hlook : getObj (nd.edges ++ [(ch, qid n)]) ch = some (qid n) := by
            rw [getObj_append_right _ hc]
            simp [getObj]
          rw [follow_cons hvB hlook]
          rfl
        obtain ⟨q1, q2, q3, q4, q5⟩ :=
          ih (n + 1) nodesB (qid n) (p ++ [ch]) hstruB hinjB hfolB
        rw [show p ++ ch :: u = (p ++ [ch]) ++ u by rw [List.append_assoc]; rfl]
        refine ⟨q1, ExtendsE_trans hext q2, q3, q4, ?_⟩
        intro w y hw hyfin
        obtain ⟨hwB, hfinB⟩ := q5 w y hw hyfin
        rcases followB_new hvd hc hfresh htgt w _ y hroot hwB with ha | ⟨hy, w1, hw1, hf1⟩
        · have hyold : (getObj nodes y).isSome :=
            follow_target_mem htgt w _ _ hroot ha
          obtain ⟨ndy, hndy⟩ := Option.isSome_iff_exists.1 hyold
          refine ⟨ha, ?_⟩
          rw [← finalAt_of_extends hext hndy]
          exact hfinB
        · exfalso
          rw [hy] at hfinB
          have hfinn : finalAt nodesB (qid n) = false := by
            unfold finalAt
            rw [getObj_insB_new _ hne hfresh]
            rfl
          rw [hfinn] at hfinB
          exact Bool.noConfusion hfinB
      · -- the edge already exists
        have hnx : (getObj nodes nx).isSome :=
          htgt _ (getObj_mem hvd) _ (getObj_mem hc)
        rw [List.foldl_cons, insChar_hit hvd hc hnx]
        have hfol : follow nodes (qid 0) (p ++ [ch]) = some nx := by
          rw [follow_append, hfp]
          show follow nodes v [ch] = some nx
          rw [follow_cons hvd hc]
          rfl
        obtain ⟨q1, q2, q3, q4, q5⟩ :=
          ih n nodes nx (p ++ [ch]) ⟨hkeys, hroot, hids, hedges⟩ hinj hfol
        rw [show p ++ ch :: u = (p ++ [ch]) ++ u by rw [List.append_assoc]; rfl]
        exact ⟨q1, q2, q3, q4, q5⟩

theorem insertWord_spec (n : Nat) (nodes : List (String × TrieNode))
    (ws : List (List String)) (u : List String)
    (hstru : TrieStru (n, nodes)) (hinj : TrieInj nodes)
    (hA : FinA nodes ws) (hB : FinB nodes ws) :
    TrieStru (insertWord (n, nodes) u) ∧ TrieInj (insertWord (n, nodes) u).2 ∧
    FinA (insertWord (n, nodes) u).2 (ws ++ [u]) ∧
    FinB (insertWord (n, nodes) u).2 (ws ++ [u]) := by
  have hfp : follow nodes (qid 0) [] = some "q0" := by rw [qid_zero]; rfl
  obtain ⟨q1, q2, q3, q4, q5⟩ := insFold_spec u n nodes "q0" [] hstru hinj hfp
  rw [List.nil_append] at q4
  set r := u.foldl insChar (n, nodes, "q0") with hrdef
  have htgt0 : ∀ q ∈ nodes, ∀ e ∈ q.2.edges, (getObj nodes e.2).isSome :=
    fun q hq e he => (hstru.2.2.2 q hq).2 e he
  have htgtR : ∀ q ∈ r.2.1, ∀ e ∈ q.2.edges, (getObj r.2.1 e.2).isSome :=
    fun q hq e he => (q1.2.2.2 q hq).2 e he
  have hrootR : (getObj r.2.1 (qid 0)).isSome := q1.2.1
  have hvend : (getObj r.2.1 r.2.2).isSome :=
    follow_target_mem htgtR u (qid 0) r.2.2 hrootR q4
  obtain ⟨ndE, hndE⟩ := Option.isSome_iff_exists.1 hvend
  have hiw : insertWord (n, nodes) u = (r.1, setObj r.2.1 r.2.2 ⟨ndE.edges, true⟩) := by
    show (r.1, setObj r.2.1 r.2.2
        ⟨((getObj r.2.1 r.2.2).getD ⟨[], false⟩).edges, true⟩)
      = (r.1, setObj r.2.1 r.2.2 ⟨ndE.edges, true⟩)
    rw [hndE]
    rfl
  rw [hiw]
  set nodesF := setObj r.2.1 r.2.2 ⟨ndE.edges, true⟩ with hFdef
  have hfolF : ∀ (w : List String) (x : String),
      follow nodesF x w = follow r.2.1 x w := follow_final_invariant hndE true
  have keysF : nodesF.map (·.1) = r.2.1.map (·.1) := by
    rw [hFdef]
    exact setObj_keys_of_mem _ (getObj_isSome_iff.1 hvend)
  have hsomeF : ∀ z : String, (getObj r.2.1 z).isSome → (getObj nodesF z).isSome := by
    intro z hz
    rw [getObj_isSome_iff, keysF]
    exact getObj_isSome_iff.1 hz
  have hfinF_self : finalAt nodesF r.2.2 = true := by
    unfold finalAt
    rw [hFdef, getObj_setObj_self]
    rfl
  have hfinF_ne : ∀ y, y ≠ r.2.2 → finalAt nodesF y = finalAt r.2.1 y := by
    intro y hy
    unfold finalAt
    rw [hFdef, getObj_setObj_ne _ _ (fun h => hy h.symm)]
  refine ⟨⟨?_, ?_, ?_, ?_⟩, ?_, ?_, ?_⟩
  · show (nodesF.map (·.1)).Nodup
    rw [keysF]
    exact q1.1
  · exact hsomeF _ hrootR
  · intro q hq
    rcases mem_setObj hq with rfl | hq'
    · obtain ⟨i, hi, hqi⟩ := q1.2.2.1 _ (getObj_mem hndE)
      exact ⟨i, hi, hqi⟩
    · exact q1.2.2.1 _ hq'
  · intro q hq
    rcases mem_setObj hq with rfl | hq'
    · obtain ⟨hnd1, hnd2⟩ := q1.2.2.2 _ (getObj_mem hndE)
      exact ⟨hnd1, fun e he => hsomeF _ (hnd2 e he)⟩
    · obtain ⟨hnd1, hnd2⟩ := q1.2.2.2 _ hq'
      exact ⟨hnd1, fun e he => hsomeF _ (hnd2 e he)⟩
  · intro w w' y h1 h2
    rw [hfolF] at h1 h2
    exact q3 w w' y h1 h2
  · intro w hw
    rcases List.mem_append.1 hw with hw | hw
    · obtain ⟨y, hy, hyfin⟩ := hA w hw
      have hyR : follow r.2.1 (qid 0) w = some y := follow_mono q2 w _ y hy
      have hyold : (getObj nodes y).isSome :=
        follow_target_mem htgt0 w _ _ hstru.2.1 hy
      obtain ⟨ndy, hndy⟩ := Option.isSome_iff_exists.1 hyold
      have hyfinR : finalAt r.2.1 y = true := by
        rw [finalAt_of_extends q2 hndy]
        exact hyfin
      refine ⟨y, by rw [hfolF]; exact hyR, ?_⟩
      by_cases hye : y = r.2.2
      · rw [hye]
        exact hfinF_self
      · rw [hfinF_ne y hye]
        exact hyfinR
    · rcases List.mem_singleton.1 hw with rfl
      exact ⟨r.2.2, by rw [hfolF]; exact q4, hfinF_self⟩
  · intro w y hw hyfin
    rw [hfolF] at hw
    by_cases hye : y = r.2.2
    · subst hye
      have : w = u := q3 w u r.2.2 hw q4
      rw [this]
      exact List.mem_append_right _ (List.mem_singleton_self _)
    · rw [hfinF_ne y hye] at hyfin
      obtain ⟨hwold, hfinold⟩ := q5 w y hw hyfin
      exact List.mem_append_left _ (hB w y hwold hfinold)

theorem trieFold_spec :
    ∀ (ws0 : List (List String)) (n : Nat) (nodes : List (String × TrieNode))
      (ws : List (List String)),
      TrieStru (n, nodes) → TrieInj nodes → FinA nodes ws → FinB nodes ws →
      TrieStru (ws0.foldl insertWord (n, nodes)) ∧
      TrieInj (ws0.foldl insertWord (n, nodes)).2 ∧
      FinA (ws0.foldl insertWord (n, nodes)).2 (ws ++ ws0) ∧
      FinB (ws0.foldl insertWord (n, nodes)).2 (ws ++ ws0) := by
  intro ws0
  induction ws0 with
  | nil =>
      intro n nodes ws h1 h2 h3 h4
      rw [List.foldl_nil, List.append_nil]
      exact ⟨h1, h2, h3, h4⟩
  | cons u rest ih =>
      intro n nodes ws h1 h2 h3 h4
      obtain ⟨p1, p2, p3, p4⟩ := insertWord_spec n nodes ws u h1 h2 h3 h4
      rw [List.foldl_cons]
      rw [show ws ++ u :: rest = (ws ++ [u]) ++ rest by simp]
      exact ih (insertWord (n, nodes) u).1 (insertWord (n, nodes) u).2
        (ws ++ [u]) p1 p2 p3 p4

theorem trieOf_spec (lang : LangDesc) :
    TrieStru (trieOf lang) ∧ TrieInj (trieOf lang).2 ∧
    FinA (trieOf lang).2 lang.accept ∧ FinB (trieOf lang).2 lang.accept := by
  have hget : getObj [("q0", (⟨[], false⟩ : TrieNode))] (qid 0)
      = some ⟨[], false⟩ := by rw [qid_zero]; rfl
  have hstep : ∀ (c : String) (rest : List String),
      follow [("q0", (⟨[], false⟩ : TrieNode))] (qid 0) (c :: rest) = none :=
    fun c rest => follow_cons_noEdge hget rfl
  have h1 : TrieStru (1, [("q0", (⟨[], false⟩ : TrieNode))]) := by
    refine ⟨by decide, by rw [hget]; rfl, ?_, ?_⟩
    · intro p hp
      rcases List.mem_singleton.1 hp with rfl
      exact ⟨0, by omega, qid_zero.symm⟩
    · intro p hp
      rcases List.mem_singleton.1 hp with rfl
      exact ⟨List.nodup_nil, fun e he => absurd he (by simp)⟩
  have h2 : TrieInj [("q0", (⟨[], false⟩ : TrieNode))] := by
    intro w w' v hw hw'
    cases w with
    | nil =>
        cases w' with
        | nil => rfl
        | cons c rest =>
            rw [hstep c rest] at hw'
            exact absurd hw' (by simp)
    | cons c rest =>
        rw [hstep c rest] at hw
        exact absurd hw (by simp)
  have h3 : FinA [("q0", (⟨[], false⟩ : TrieNode))] [] :=
    fun w hw => absurd hw (List.not_mem_nil w)
  have h4 : FinB [("q0", (⟨[], false⟩ : TrieNode))] [] := by
    intro w v hw hfin
    cases w with
    | nil =>
        obtain rfl : qid 0 = v := by injection hw
        rw [show finalAt [("q0", (⟨[], false⟩ : TrieNode))] (qid 0) = false
          from by unfold finalAt; rw [hget]; rfl] at hfin
        exact absurd hfin (by simp)
    | cons c rest =>
        rw [hstep c rest] at hw
        exact absurd hw (by simp)
  obtain ⟨p1, p2, p3, p4⟩ := trieFold_spec lang.accept 1 _ [] h1 h2 h3 h4
  rw [List.nil_append] at p3 p4
  exact ⟨p1, p2, p3, p4⟩

theorem mem_jsDedup [DecidableEq α] {l : List α} {y : α} :
    y ∈ jsDedup l ↔ y ∈ l := by
  unfold jsDedup
  rw [mem_addAll]
  simp

theorem getObj_map_snd (o : List (String × α)) (f : α → β) (k : String) :
    getObj (o.map (fun p => (p.1, f p.2))) k = (getObj o k).map f := by
  induction o with
  | nil => rfl
  | cons p rest ih =>
      cases p with
      | mk k' v =>
          by_cases hk : k' = k
          · simp [getObj, hk]
          · simp only [List.map_cons, getObj, if_neg hk]
            exact ih

theorem contains_filter_final {nodes : List (String × TrieNode)}
    (hnd : (nodes.map (·.1)).Nodup) (y : String) :
    ((nodes.filter (fun p => p.2.final)).map (·.1)).contains y = finalAt nodes y := by
  induction nodes with
  | nil => rfl
  | cons p rest ih =>
      cases p with
      | mk k nd =>
          rw [List.map_cons, List.nodup_cons] at hnd
          have hself : finalAt ((k, nd) :: rest) k = nd.final := by
            unfold finalAt
            simp [getObj]
          by_cases hk : k = y
          · subst hk
            have hnot : finalAt rest k = false := by
              unfold finalAt
              rw [getObj_eq_none_iff.2 hnd.1]
              rfl
            have hnotc :
                ((rest.filter (fun p => p.2.final)).map (·.1)).contains k = false := by
              rw [ih hnd.2, hnot]
            rcases hf : nd.final with _ | _
            · have hfl : List.filter (fun p => p.2.final) ((k, nd) :: rest)
                  = List.filter (fun p => p.2.final) rest := by
                rw [List.filter_cons]
                simp [hf]
              rw [hfl, hself, hf, hnotc]
            · have hfl : List.filter (fun p => p.2.final) ((k, nd) :: rest)
                  = (k, nd) :: List.filter (fun p => p.2.final) rest := by
                rw [List.filter_cons]
                simp [hf]
              rw [hfl, hself, hf, List.map_cons]
              simp
          · have htail : finalAt ((k, nd) :: rest) y = finalAt rest y := by
              unfold finalAt
              rw [show getObj ((k, nd) :: rest) y = getObj rest y
                from by simp [getObj, hk]]
            rw [htail, ← ih hnd.2]
            rcases hf : nd.final with _ | _
            · have hfl : List.filter (fun p => p.2.final) ((k, nd) :: rest)
                  = List.filter (fun p => p.2.final) rest := by
                rw [List.filter_cons]
                simp [hf]
              rw [hfl]
            · have hfl : List.filter (fun p => p.2.final) ((k, nd) :: rest)
                  = (k, nd) :: List.filter (fun p => p.2.final) rest := by
                rw [List.filter_cons]
                simp [hf]
              rw [hfl, List.map_cons]
              simp only [List.contains_cons]
              rw [show (y == k : Bool) = false from by
                simp only [beq_eq_false_iff_ne]; exact fun h => hk h.symm]
              simp

theorem getObj_trieconv (nodes : List (String × TrieNode)) (k : String) :
    getObj (nodes.map (fun p => (p.1, p.2.edges.map (fun e => (e.1, [some e.2]))))) k
      = (getObj nodes k).map (fun nd => nd.edges.map (fun e => (e.1, [some e.2]))) := by
  induction nodes with
  | nil => rfl
  | cons p rest ih =>
      cases p with
      | mk k' v =>
          by_cases hk : k' = k
          · simp [getObj, hk]
          · simp only [List.map_cons, getObj, if_neg hk]
            exact ih

theorem getObj_edgeconv (edges : List (String × String)) (ch : String) :
    getObj (edges.map (fun e => (e.1, [some e.2]))) ch
      = (getObj edges ch).map (fun nx => ([some nx] : List StVal)) := by
  induction edges with
  | nil => rfl
  | cons e rest ih =>
      cases e with
      | mk c nx =>
          by_cases hc : c = ch
          · simp [getObj, hc]
          · simp only [List.map_cons, getObj, if_neg hc]
            exact ih

theorem acceptsDRun_trie {nodes : List (String × TrieNode)} {A : Automaton}
    (hT : A.transitions
      = nodes.map (fun p => (p.1, p.2.edges.map (fun e => (e.1, [some e.2])))))
    (hAcc : A.accept = (nodes.filter (fun p => p.2.final)).map (·.1))
    (hnd : (nodes.map (·.1)).Nodup) :
    ∀ (w : List String) (x : String),
      (acceptsDRun A w (some x)).accepted =
        (match follow nodes x w with
          | none => false
          | some y => finalAt nodes y) := by
  intro w
  induction w with
  | nil =>
      intro x
      show (if acceptsMem A.accept (some x) then (⟨true, .reachedAcceptState⟩ : Verdict)
        else ⟨false, .stoppedNonAccepting⟩).accepted = finalAt nodes x
      rw [show acceptsMem A.accept (some x) = A.accept.contains x from rfl,
        hAcc, contains_filter_final hnd x]
      rcases finalAt nodes x with _ | _ <;> rfl
  | cons ch rest ih =>
      intro x
      rcases hx : getObj nodes x with _ | nd
      · have hmv : movesOf A (some x) ch = [] := by
          unfold movesOf
          rw [show jsKey (some x) = x from rfl, hT, getObj_trieconv, hx]
          rfl
        show (match movesOf A (some x) ch with
          | [] => (⟨false, .noTransition⟩ : Verdict)
          | v :: _ => acceptsDRun A rest v).accepted = _
        rw [hmv, follow_cons_noNode hx]
      · rcases hc : getObj nd.edges ch with _ | nx
        · have hmv : movesOf A (some x) ch = [] := by
            unfold movesOf
            rw [show jsKey (some x) = x from rfl, hT, getObj_trieconv, hx]
            show (getObj (nd.edges.map (fun e => (e.1, [some e.2]))) ch).getD [] = []
            rw [getObj_edgeconv, hc]
            rfl
          show (match movesOf A (some x) ch with
            | [] => (⟨false, .noTransition⟩ : Verdict)
            | v :: _ => acceptsDRun A rest v).accepted = _
          rw [hmv, follow_cons_noEdge hx hc]
        · have hmv : movesOf A (some x) ch = [some nx] := by
            unfold movesOf
            rw [show jsKey (some x) = x from rfl, hT, getObj_trieconv, hx]
            show (getObj (nd.edges.map (fun e => (e.1, [some e.2]))) ch).getD []
              = [some nx]
            rw [getObj_edgeconv, hc]
            rfl
          show (match movesOf A (some x) ch with
            | [] => (⟨false, .noTransition⟩ : Verdict)
            | v :: _ => acceptsDRun A rest v).accepted = _
          rw [hmv, follow_cons hx hc]
          exact ih nx

/-- C2: Trie correctness.  For every language description whose
alphabet is a non-empty array and whose words use only alphabet
symbols, `buildTrieDFA` succeeds, its start state is the root `"q0"`,
and for every input string `w` (including the empty one)
`accepts(buildTrieDFA(L), w).accepted` holds if and only if `w` is a
member of `L.accept`; in particular inserting the empty word marks the
root state itself accepting. -/
theorem C2_trie_correct (lang : LangDesc)
    (halpha : lang.alphabet ≠ [])
    (hwords : ∀ w ∈ lang.accept, ∀ ch ∈ w, ch ∈ lang.alphabet) :
    ∃ dfa, buildTrieDFA lang = .ok dfa ∧
      dfa.start = some "q0" ∧
      (∀ w : List String, (acceptsD dfa w).accepted = true ↔ w ∈ lang.accept) ∧
      ([] ∈ lang.accept → dfa.accept.contains "q0" = true) := by
  have hlen : ¬ lang.alphabet.length = 0 :=
    fun h => halpha (List.length_eq_zero.1 h)
  have hfind : lang.accept.find?
      (fun w => w.any (fun ch => !(lang.alphabet.contains ch))) = none := by
    rw [List.find?_eq_none]
    intro w hw h
    rw [List.any_eq_true] at h
    obtain ⟨ch, hch, hbad⟩ := h
    rw [Bool.not_eq_true'] at hbad
    have hcon : lang.alphabet.contains ch = true := by
      simpa using hwords w hw ch hch
    rw [hcon] at hbad
    exact Bool.noConfusion hbad
  obtain ⟨p1, p2, p3, p4⟩ := trieOf_spec lang
  have hkeysnd : ((trieOf lang).2.map (·.1)).Nodup := p1.1
  have hbuild : buildTrieDFA lang = .ok
      { alphabet := jsDedup lang.alphabet
        states := (trieOf lang).2.map (·.1)
        start := some "q0"
        accept := ((trieOf lang).2.filter (fun p => p.2.final)).map (·.1)
        transitions := (trieOf lang).2.map (fun p =>
          (p.1, p.2.edges.map (fun e => (e.1, [some e.2])))) } := by
    unfold buildTrieDFA
    rw [if_neg hlen, hfind]
  refine ⟨_, hbuild, rfl, ?_, ?_⟩
  · intro w
    show (acceptsD _ w).accepted = true ↔ w ∈ lang.accept
    rcases hf2 : w.find? (fun ch => !((jsDedup lang.alphabet).contains ch))
      with _ | ch
    · have hrun : acceptsD
          { alphabet := jsDedup lang.alphabet
            states := (trieOf lang).2.map (·.1)
            start := some "q0"
            accept := ((trieOf lang).2.filter (fun p => p.2.final)).map (·.1)
            transitions := (trieOf lang).2.map (fun p =>
              (p.1, p.2.edges.map (fun e => (e.1, [some e.2])))) } w
          = acceptsDRun
            { alphabet := jsDedup lang.alphabet
              states := (trieOf lang).2.map (·.1)
              start := some "q0"
              accept := ((trieOf lang).2.filter (fun p => p.2.final)).map (·.1)
              transitions := (trieOf lang).2.map (fun p =>
                (p.1, p.2.edges.map (fun e => (e.1, [some e.2])))) } w (some "q0") := by
        unfold acceptsD
        rw [hf2]
      rw [hrun, acceptsDRun_trie rfl rfl hkeysnd w "q0"]
      constructor
      · intro htrue
        rcases hfw : follow (trieOf lang).2 "q0" w with _ | y
        · rw [hfw] at htrue
          exact Bool.noConfusion htrue
        · rw [hfw] at htrue
          exact p4 w y (by rw [qid_zero]; exact hfw) htrue
      · intro hmem
        obtain ⟨y, hy, hfin⟩ := p3 w hmem
        rw [qid_zero] at hy
        rw [hy]
        exact hfin
    · have hver : acceptsD
          { alphabet := jsDedup lang.alphabet
            states := (trieOf lang).2.map (·.1)
            start := some "q0"
            accept := ((trieOf lang).2.filter (fun p => p.2.final)).map (·.1)
            transitions := (trieOf lang).2.map (fun p =>
              (p.1, p.2.edges.map (fun e => (e.1, [some e.2])))) } w
          = ⟨false, .symbolNotInAlphabet ch⟩ := by
        unfold acceptsD
        rw [hf2]
      rw [hver]
      constructor
      · intro h
        exact Bool.noConfusion h
      · intro hmem
        exfalso
        obtain ⟨hp, as1, bs1, hsplit, _⟩ := List.find?_eq_some.1 hf2
        have hchw : ch ∈ w := by
          rw [hsplit]
          exact List.mem_append_right _ (List.mem_cons_self _ _)
        rw [Bool.not_eq_true'] at hp
        have hcon : (jsDedup lang.alphabet).contains ch = true := by
          have : ch ∈ jsDedup lang.alphabet :=
            mem_jsDedup.2 (hwords w hmem ch hchw)
          simpa using this
        rw [hcon] at hp
        exact Bool.noConfusion hp
  · intro hnil
    obtain ⟨y, hy, hfin⟩ := p3 [] hnil
    obtain rfl : qid 0 = y := by injection hy
    show (((trieOf lang).2.filter (fun p => p.2.final)).map (·.1)).contains "q0" = true
    rw [contains_filter_final hkeysnd]
    rw [← qid_zero]
    have hfin' : finalAt (trieOf lang).2 (qid 0) = true := hfin
    exact hfin'

/-- Witness for C2 at the concrete language
`{alphabet: [a, b], accept: ["", "a", "ab", "aabb"]}`. -/
theorem C2_trie_correct_witness :
    exLang.alphabet ≠ [] ∧ (∀ w ∈ exLang.accept, ∀ ch ∈ w, ch ∈ exLang.alphabet) ∧
    (∃ dfa, buildTrieDFA exLang = .ok dfa ∧
      dfa.start = some "q0" ∧
      (∀ w : List String, (acceptsD dfa w).accepted = true ↔ w ∈ exLang.accept) ∧
      ([] ∈ exLang.accept → dfa.accept.contains "q0" = true)) :=
  ⟨by decide, by decide, C2_trie_correct exLang (by decide) (by decide)⟩

theorem repFold_mono (g : String → String) :
    ∀ (l : List String) (r : List (String × String)) (k : String),
      (getObj r k).isSome →
      (getObj (l.foldl (fun r s =>
        if (getObj r (g s)).isSome then r else r ++ [(g s, s)]) r) k).isSome := by
  intro l
  induction l with
  | nil =>
      intro r k h
      exact h
  | cons s l ih =>
      intro r k h
      rw [List.foldl_cons]
      split_ifs with hs
      · exact ih r k h
      · refine ih _ k ?_
        rw [getObj_append_left _ h]
        exact h

theorem repFold_covers (g : String → String) :
    ∀ (l : List String) (r : List (String × String)) (s : String), s ∈ l →
      (getObj (l.foldl (fun r s =>
        if (getObj r (g s)).isSome then r else r ++ [(g s, s)]) r) (g s)).isSome := by
  intro l
  induction l with
  | nil =>
      intro r s h
      exact absurd h (List.not_mem_nil s)
  | cons t l ih =>
      intro r s hs
      rw [List.foldl_cons]
      rcases List.mem_cons.1 hs with rfl | hs
      · split_ifs with h
        · exact repFold_mono g l r (g s) h
        · refine repFold_mono g l _ (g s) ?_
          rw [getObj_append_right _ (Option.not_isSome_iff_eq_none.1 h)]
          simp [getObj]
      · split_ifs with h
        · exact ih r s hs
        · exact ih _ s hs

theorem mapToRepFold_get (val : String → α) :
    ∀ (l : List String) (m : List (String × α)) (s : String),
      (s ∈ l ∨ getObj m s = some (val s)) →
      getObj (l.foldl (fun m s => setObj m s (val s)) m) s = some (val s) := by
  intro l
  induction l with
  | nil =>
      intro m s h
      rcases h with h | h
      · exact absurd h (List.not_mem_nil s)
      · exact h
  | cons t l ih =>
      intro m s h
      rw [List.foldl_cons]
      rcases h with h | h
      · rcases List.mem_cons.1 h with rfl | h
        · exact ih _ s (Or.inr (getObj_setObj_self m s (val s)))
        · exact ih _ s (Or.inl h)
      · by_cases hts : t = s
        · subst hts
          exact ih _ t (Or.inr (getObj_setObj_self m t (val t)))
        · refine ih _ s (Or.inr ?_)
          rw [getObj_setObj_ne m _ hts]
          exact h

theorem mapToRepL_mem {d : Automaton} {s : String} (hs : s ∈ d.states) :
    ∃ rep, getObj (mapToRepL d) s = some rep ∧
      getObj (repList d) (sigOf d (some s)) = some rep ∧
      rep ∈ (repList d).map (·.2) := by
  have hcov : (getObj (repList d) (sigOf d (some s))).isSome :=
    repFold_covers (fun s => sigOf d (some s)) d.states [] s hs
  obtain ⟨rep, hrep⟩ := Option.isSome_iff_exists.1 hcov
  have hget : getObj (mapToRepL d) s
      = some ((getObj (repList d) (sigOf d (some s))).getD "") :=
    mapToRepFold_get (fun s => (getObj (repList d) (sigOf d (some s))).getD "")
      d.states [] s (Or.inl hs)
  refine ⟨rep, ?_, hrep, ?_⟩
  · rw [hget, hrep]
    rfl
  · exact List.mem_map.2 ⟨(sigOf d (some s), rep), getObj_mem hrep, rfl⟩

theorem setObjFold_mem (body : String → α) :
    ∀ (l : List String) (m : List (String × α)) (p : String × α),
      p ∈ l.foldl (fun m s => setObj m s (body s)) m →
      p ∈ m ∨ (p.1 ∈ l ∧ p = (p.1, body p.1)) := by
  intro l
  induction l with
  | nil =>
      intro m p h
      exact Or.inl h
  | cons t l ih =>
      intro m p h
      rw [List.foldl_cons] at h
      rcases ih _ p h with h | ⟨h1, h2⟩
      · rcases mem_setObj h with rfl | h'
        · exact Or.inr ⟨List.mem_cons_self t l, rfl⟩
        · exact Or.inl h'
      · exact Or.inr ⟨List.mem_cons_of_mem t h1, h2⟩

theorem buildTrie_integrity {lang : LangDesc} {dfa : Automaton}
    (h : buildTrieDFA lang = .ok dfa) : Integrity dfa := by
  obtain ⟨p1, -, -, -⟩ := trieOf_spec lang
  unfold buildTrieDFA at h
  by_cases hlen : lang.alphabet.length = 0
  · rw [if_pos hlen] at h
    exact Except.noConfusion h
  · rw [if_neg hlen] at h
    rcases hfind : lang.accept.find?
        (fun w => w.any (fun ch => !(lang.alphabet.contains ch))) with _ | w
    · rw [hfind] at h
      have hrec := h
      injection hrec with hrec
      subst hrec
      refine ⟨⟨"q0", rfl, ?_⟩, ?_, ?_⟩
      · show "q0" ∈ (trieOf lang).2.map (·.1)
        rw [← qid_zero]
        exact getObj_isSome_iff.1 p1.2.1
      · intro x hx
        show x ∈ (trieOf lang).2.map (·.1)
        obtain ⟨q, hq, rfl⟩ := List.mem_map.1 hx
        exact List.mem_map.2 ⟨q, List.mem_of_mem_filter hq, rfl⟩
      · intro p hp
        obtain ⟨q, hq, rfl⟩ := List.mem_map.1 hp
        constructor
        · exact List.mem_map.2 ⟨q, hq, rfl⟩
        · intro r hr v hv
          obtain ⟨e, he, rfl⟩ := List.mem_map.1 hr
          rcases List.mem_singleton.1 hv with rfl
          refine ⟨e.2, rfl, ?_⟩
          show e.2 ∈ (trieOf lang).2.map (·.1)
          exact getObj_isSome_iff.1 ((p1.2.2.2 q hq).2 e he)
    · rw [hfind] at h
      exact Except.noConfusion h

theorem minimize_integrity {d : Automaton}
    (hds : DestOk d.states d.start)
    (hdt : ∀ p ∈ d.transitions, ∀ q ∈ p.2, DestOk d.states (jsHead q.2)) :
    Integrity (minimizeAcyclicDFA d) := by
  obtain ⟨s0, hs0, hs0m⟩ := hds
  refine ⟨?_, ?_, ?_⟩
  · obtain ⟨rep, hrep, -, hrepm⟩ := mapToRepL_mem hs0m
    refine ⟨rep, ?_, hrepm⟩
    show getRep d d.start = some rep
    rw [hs0]
    exact hrep
  · intro x hx
    exact List.mem_of_mem_filter hx
  · intro p hp
    have hp' : p ∈ ((repList d).map (·.2)).foldl (fun tr s =>
        setObj tr s (((getObj d.transitions s).getD []).map (fun e =>
          (e.1, [getRep d (jsHead e.2)])))) [] := hp
    rcases setObjFold_mem
        (fun s => ((getObj d.transitions s).getD []).map (fun e =>
          (e.1, [getRep d (jsHead e.2)])))
        ((repList d).map (·.2)) [] p hp' with h | ⟨h1, h2⟩
    · exact absurd h (List.not_mem_nil p)
    · refine ⟨h1, ?_⟩
      intro q hq v hv
      have h2' : p.2 = ((getObj d.transitions p.1).getD []).map (fun e =>
          (e.1, [getRep d (jsHead e.2)])) := by
        rw [h2]
      rw [h2'] at hq
      obtain ⟨e, he, rfl⟩ := List.mem_map.1 hq
      rcases List.mem_singleton.1 hv with rfl
      rcases hget : getObj d.transitions p.1 with _ | es
      · rw [hget] at he
        exact absurd he (List.not_mem_nil e)
      · rw [hget] at he
        obtain ⟨dst, hjs, hdstm⟩ := hdt _ (getObj_mem hget) e he
        obtain ⟨rep, hrep, -, hrepm⟩ := mapToRepL_mem hdstm
        refine ⟨rep, ?_, hrepm⟩
        show getRep d (jsHead e.2) = some rep
        rw [hjs]
        exact hrep

/-- C10 counterexample: on the well-formed acyclic deterministic
automaton `exEmptyEntry`, whose state `s` has the empty destination
array `transitions.s.a = []`, the minimizer emits the transition entry
`s -a-> [undefined]`, whose destination is not a member of the new
state list: referential integrity fails for `minimizeAcyclicDFA`. -/
theorem C10_integrity_counterexample :
    ¬ Integrity (minimizeAcyclicDFA exEmptyEntry) := by
  intro h
  obtain ⟨dst, hd, -⟩ := (h.2.2 ("s", [("a", [(none : StVal)])]) (by decide)).2
    ("a", [(none : StVal)]) (by decide) none (by decide)
  exact Option.noConfusion hd

/-- C10 (amended): every automaton returned by `nfaToDfa` satisfies
referential integrity (start in `states`, accept set and every
transition source and destination in `states`); so does every automaton
successfully returned by `buildTrieDFA`; and so does
`minimizeAcyclicDFA d` provided the input `d`'s start is a defined
member of `d.states` and every transition entry of `d` has a
destination array whose first element is defined and a member of
`d.states`. -/
theorem C10_integrity_amended (nfa : Automaton) (lang : LangDesc) (d : Automaton)
    (hds : DestOk d.states d.start)
    (hdt : ∀ p ∈ d.transitions, ∀ q ∈ p.2, DestOk d.states (jsHead q.2)) :
    Integrity (nfaToDfa nfa) ∧
    (∀ dfa, buildTrieDFA lang = .ok dfa → Integrity dfa) ∧
    Integrity (minimizeAcyclicDFA d) :=
  ⟨nfaToDfa_integrity nfa, fun _ h => buildTrie_integrity h,
    minimize_integrity hds hdt⟩

/-- Witness for C10 at the NFA `exScenario`, the language `exLang` and
the acyclic deterministic automaton `exSigCollide`. -/
theorem C10_integrity_amended_witness :
    DestOk exSigCollide.states exSigCollide.start ∧
    (∀ p ∈ exSigCollide.transitions, ∀ q ∈ p.2,
      DestOk exSigCollide.states (jsHead q.2)) ∧
    (Integrity (nfaToDfa exScenario) ∧
     (∀ dfa, buildTrieDFA exLang = .ok dfa → Integrity dfa) ∧
     Integrity (minimizeAcyclicDFA exSigCollide)) :=
  ⟨by decide, by decide,
    C10_integrity_amended exScenario exLang exSigCollide (by decide) (by decide)⟩

theorem sigF_succ (d : Automaton) (fuel : Nat) (s : StVal) :
    sigF d (fuel + 1) s =
      (if acceptsMem d.accept s then "1" else "0") ++ "|" ++
      joinComma ((sortStrings (((getObj d.transitions (jsKey s)).getD []).map (·.1))).map
        (fun a => a ++ ">" ++ sigF d fuel
          (jsHead ((getObj ((getObj d.transitions (jsKey s)).getD []) a).getD [])))) :=
  rfl

theorem sigF_fuel_congr {d : Automaton} {rank : String → Nat}
    (hne : ∀ p ∈ d.transitions, ∀ q ∈ p.2,
      ∃ dst, jsHead q.2 = some dst ∧ rank dst < rank p.1) :
    ∀ (n : Nat) (s : StVal), rank (jsKey s) ≤ n →
      ∀ (f1 f2 : Nat), rank (jsKey s) < f1 → rank (jsKey s) < f2 →
        sigF d f1 s = sigF d f2 s := by
  intro n
  induction n with
  | zero =>
      intro s hs f1 f2 h1 h2
      rcases f1 with _ | g1
      · omega
      rcases f2 with _ | g2
      · omega
      rw [sigF_succ, sigF_succ]
      rcases hget : getObj d.transitions (jsKey s) with _ | es
      · rfl
      · simp only [Option.getD_some]
        refine congrArg (fun t => (if acceptsMem d.accept s then "1" else "0")
          ++ "|" ++ joinComma t) (List.map_congr_left ?_)
        intro a ha
        exfalso
        have hamem : a ∈ es.map (·.1) := (sortStrings_perm _).mem_iff.1 ha
        obtain ⟨arr, harr⟩ :=
          Option.isSome_iff_exists.1 (getObj_isSome_iff.2 hamem)
        obtain ⟨dst, hd, hlt⟩ := hne _ (getObj_mem hget) _ (getObj_mem harr)
        have hlt' : rank dst < rank (jsKey s) := hlt
        omega
  | succ n ih =>
      intro s hs f1 f2 h1 h2
      rcases f1 with _ | g1
      · omega
      rcases f2 with _ | g2
      · omega
      rw [sigF_succ, sigF_succ]
      rcases hget : getObj d.transitions (jsKey s) with _ | es
      · rfl
      · simp only [Option.getD_some]
        refine congrArg (fun t => (if acceptsMem d.accept s then "1" else "0")
          ++ "|" ++ joinComma t) (List.map_congr_left ?_)
        intro a ha
        have hamem : a ∈ es.map (·.1) := (sortStrings_perm _).mem_iff.1 ha
        obtain ⟨arr, harr⟩ :=
          Option.isSome_iff_exists.1 (getObj_isSome_iff.2 hamem)
        obtain ⟨dst, hd, hlt⟩ := hne _ (getObj_mem hget) _ (getObj_mem harr)
        have hlt' : rank dst < rank (jsKey s) := hlt
        have hdst : jsHead ((getObj es a).getD []) = some dst := by
          rw [harr]
          exact hd
        rw [hdst]
        have hih := ih (some dst) (by
          show rank dst ≤ n
          omega) g1 g2 (by show rank dst < g1; omega) (by show rank dst < g2; omega)
        rw [show (a ++ ">" ++ sigF d g1 (some dst))
          = (a ++ ">" ++ sigF d g2 (some dst)) from by rw [hih]]

theorem sigOf_unfold {d : Automaton} {rank : String → Nat}
    (hne : ∀ p ∈ d.transitions, ∀ q ∈ p.2,
      ∃ dst, jsHead q.2 = some dst ∧ rank dst < rank p.1)
    (hbound : ∀ st, rank st ≤ d.states.length)
    (s : StVal) :
    sigOf d s =
      (if acceptsMem d.accept s then "1" else "0") ++ "|" ++
      joinComma ((sortStrings (((getObj d.transitions (jsKey s)).getD []).map (·.1))).map
        (fun a => a ++ ">" ++ sigOf d
          (jsHead ((getObj ((getObj d.transitions (jsKey s)).getD []) a).getD [])))) := by
  show sigF d (d.states.length + 1) s = _
  rw [sigF_succ]
  rcases hget : getObj d.transitions (jsKey s) with _ | es
  · rfl
  · simp only [Option.getD_some]
    refine congrArg (fun t => (if acceptsMem d.accept s then "1" else "0")
      ++ "|" ++ joinComma t) (List.map_congr_left ?_)
    intro a ha
    have hamem : a ∈ es.map (·.1) := (sortStrings_perm _).mem_iff.1 ha
    obtain ⟨arr, harr⟩ :=
      Option.isSome_iff_exists.1 (getObj_isSome_iff.2 hamem)
    obtain ⟨dst, hd, hlt⟩ := hne _ (getObj_mem hget) _ (getObj_mem harr)
    have hlt' : rank dst < rank (jsKey s) := hlt
    have hdst : jsHead ((getObj es a).getD []) = some dst := by
      rw [harr]
      exact hd
    rw [hdst]
    have hsig : sigF d d.states.length (some dst) = sigOf d (some dst) := by
      refine sigF_fuel_congr hne (rank dst) (some dst) (le_refl _)
        d.states.length (sigFuel d) ?_ ?_
      · show rank dst < d.states.length
        have := hbound (jsKey s)
        omega
      · show rank dst < d.states.length + 1
        have := hbound dst
        omega
    rw [show (a ++ ">" ++ sigF d d.states.length (some dst))
      = (a ++ ">" ++ sigOf d (some dst)) from by rw [hsig]]

theorem gtCount_append (a b : String) :
    gtCount (a ++ b) = gtCount a + gtCount b := by
  unfold gtCount
  rw [String.data_append, List.count_append]

theorem gtCount_joinComma_mem {x : String} :
    ∀ {parts : List String}, x ∈ parts → gtCount x ≤ gtCount (joinComma parts) := by
  intro parts
  induction parts with
  | nil =>
      intro h
      exact absurd h (List.not_mem_nil x)
  | cons p rest ih =>
      intro h
      rcases rest with _ | ⟨q, rest'⟩
      · rcases List.mem_singleton.1 h with rfl
        exact le_refl _
      · rw [show joinComma (p :: q :: rest') = p ++ "," ++ joinComma (q :: rest')
          from rfl, gtCount_append, gtCount_append]
        rcases List.mem_cons.1 h with rfl | h
        · omega
        · have := ih h
          omega

theorem repFold_entries (g : String → String) :
    ∀ (l : List String) (r : List (String × String)) (p : String × String),
      p ∈ l.foldl (fun r s =>
        if (getObj r (g s)).isSome then r else r ++ [(g s, s)]) r →
      p ∈ r ∨ (p.1 = g p.2 ∧ p.2 ∈ l) := by
  intro l
  induction l with
  | nil =>
      intro r p h
      exact Or.inl h
  | cons s l ih =>
      intro r p h
      rw [List.foldl_cons] at h
      by_cases hs : (getObj r (g s)).isSome
      · rw [if_pos hs] at h
        rcases ih r p h with h | ⟨h1, h2⟩
        · exact Or.inl h
        · exact Or.inr ⟨h1, List.mem_cons_of_mem s h2⟩
      · rw [if_neg hs] at h
        rcases ih _ p h with h | ⟨h1, h2⟩
        · rcases List.mem_append.1 h with h | h
          · exact Or.inl h
          · rcases List.mem_singleton.1 h with rfl
            exact Or.inr ⟨rfl, List.mem_cons_self s l⟩
        · exact Or.inr ⟨h1, List.mem_cons_of_mem s h2⟩

theorem repFold_keys_nodup (g : String → String) :
    ∀ (l : List String) (r : List (String × String)),
      (r.map (·.1)).Nodup →
      (((l.foldl (fun r s =>
        if (getObj r (g s)).isSome then r else r ++ [(g s, s)]) r)).map (·.1)).Nodup := by
  intro l
  induction l with
  | nil =>
      intro r h
      exact h
  | cons s l ih =>
      intro r h
      rw [List.foldl_cons]
      by_cases hs : (getObj r (g s)).isSome
      · rw [if_pos hs]
        exact ih r h
      · rw [if_neg hs]
        refine ih _ ?_
        rw [List.map_append, List.nodup_append]
        refine ⟨h, by simp, ?_⟩
        intro a ha hmem
        simp only [List.map_cons, List.map_nil, List.mem_singleton] at hmem
        rw [hmem] at ha
        exact absurd (getObj_isSome_iff.2 ha) hs

theorem repList_entries {d : Automaton} {p : String × String}
    (hp : p ∈ repList d) : p.1 = sigOf d (some p.2) ∧ p.2 ∈ d.states := by
  rcases repFold_entries (fun s => sigOf d (some s)) d.states [] p hp with h | h
  · exact absurd h (List.not_mem_nil p)
  · exact h

theorem repList_keys_nodup (d : Automaton) :
    ((repList d).map (·.1)).Nodup :=
  repFold_keys_nodup (fun s => sigOf d (some s)) d.states [] (by simp)

theorem repList_values_nodup (d : Automaton) :
    ((repList d).map (·.2)).Nodup := by
  have hmapeq : (repList d).map (·.1)
      = ((repList d).map (·.2)).map (fun s => sigOf d (some s)) := by
    rw [List.map_map]
    exact List.map_congr_left (fun p hp => (repList_entries hp).1)
  have := repList_keys_nodup d
  rw [hmapeq] at this
  exact this.of_map

theorem filter_length_mono {l : List α} {p q : α → Bool}
    (himp : ∀ x ∈ l, p x = true → q x = true) :
    (l.filter p).length ≤ (l.filter q).length := by
  induction l with
  | nil => exact le_refl _
  | cons a l ih =>
      have ih' := ih (fun x hx => himp x (List.mem_cons_of_mem a hx))
      rcases hpa : p a with _ | _
      · rcases hqa : q a with _ | _
        · rw [List.filter_cons, List.filter_cons, hpa, hqa]
          exact ih'
        · rw [List.filter_cons, List.filter_cons, hpa, hqa]
          simp only [if_false, if_true, List.length_cons, Bool.false_eq_true]
          omega
      · have hqa := himp a (List.mem_cons_self a l) hpa
        rw [List.filter_cons, List.filter_cons, hpa, hqa]
        simp only [if_true, List.length_cons]
        omega

theorem filter_length_lt {l : List α} {p q : α → Bool}
    (himp : ∀ x ∈ l, p x = true → q x = true) {x : α} (hx : x ∈ l)
    (hqx : q x = true) (hpx : p x = false) :
    (l.filter p).length < (l.filter q).length := by
  induction l with
  | nil => exact absurd hx (List.not_mem_nil x)
  | cons a l ih =>
      have hmono : (l.filter p).length ≤ (l.filter q).length :=
        filter_length_mono (fun y hy => himp y (List.mem_cons_of_mem a hy))
      rcases List.mem_cons.1 hx with rfl | hx'
      · rw [List.filter_cons, List.filter_cons, hpx, hqx]
        simp only [if_true, if_false, List.length_cons, Bool.false_eq_true]
        omega
      · have ih' := ih (fun y hy => himp y (List.mem_cons_of_mem a hy)) hx'
        rcases hpa : p a with _ | _
        · rcases hqa : q a with _ | _
          · rw [List.filter_cons, List.filter_cons, hpa, hqa]
            exact ih'
          · rw [List.filter_cons, List.filter_cons, hpa, hqa]
            simp only [if_false, if_true, List.length_cons, Bool.false_eq_true]
            omega
        · have hqa := himp a (List.mem_cons_self a l) hpa
          rw [List.filter_cons, List.filter_cons, hpa, hqa]
          simp only [if_true, List.length_cons]
          omega

theorem minTrans_get {d : Automaton} {r : String}
    (hr : r ∈ (repList d).map (·.2)) :
    getObj (minimizeAcyclicDFA d).transitions r
      = some (((getObj d.transitions r).getD []).map (fun e =>
          (e.1, [getRep d (jsHead e.2)]))) := by
  have h := mapToRepFold_get
    (fun s => ((getObj d.transitions s).getD []).map (fun e =>
      (e.1, [getRep d (jsHead e.2)])))
    ((repList d).map (·.2)) [] r (Or.inl hr)
  exact h

theorem getRep_spec {d : Automaton} {dst : String} (h : dst ∈ d.states) :
    ∃ rep, getRep d (some dst) = some rep ∧
      sigOf d (some rep) = sigOf d (some dst) ∧
      rep ∈ (repList d).map (·.2) := by
  obtain ⟨rep, hmap, hrep, hrepm⟩ := mapToRepL_mem h
  refine ⟨rep, hmap, ?_, hrepm⟩
  exact ((repList_entries (getObj_mem hrep)).1).symm

theorem contains_filter_of_mem {l : List String} {r : String} (hr : r ∈ l)
    (p : String → Bool) : (l.filter p).contains r = p r := by
  rcases hp : p r with _ | _
  · rw [Bool.eq_false_iff]
    intro hc
    have hm : r ∈ l.filter p := by simpa using hc
    have := (List.mem_filter.1 hm).2
    rw [hp] at this
    exact Bool.noConfusion this
  · have hm : r ∈ l.filter p := List.mem_filter.2 ⟨hr, hp⟩
    simpa using hm

theorem min_accept_flag {d : Automaton} {r : String}
    (hr : r ∈ (repList d).map (·.2)) :
    acceptsMem (minimizeAcyclicDFA d).accept (some r)
      = acceptsMem d.accept (some r) := by
  show ((((repList d).map (·.2)).filter
    (fun s => d.accept.contains s)).contains r) = d.accept.contains r
  exact contains_filter_of_mem hr _

theorem gtCount_child_lt {d : Automaton} {rank : String → Nat}
    (hne : ∀ p ∈ d.transitions, ∀ q ∈ p.2,
      ∃ dst, jsHead q.2 = some dst ∧ rank dst < rank p.1)
    (hbound : ∀ st, rank st ≤ d.states.length)
    {s : StVal} {es : List (String × List StVal)}
    (hget : getObj d.transitions (jsKey s) = some es)
    {a : String} {arr : List StVal} (harr : getObj es a = some arr)
    {dst : String} (hd : jsHead arr = some dst) :
    gtCount (sigOf d (some dst)) < gtCount (sigOf d s) := by
  rw [sigOf_unfold hne hbound s, hget]
  simp only [Option.getD_some]
  rw [gtCount_append, gtCount_append]
  have hflag : gtCount (if acceptsMem d.accept s then "1" else "0") = 0 := by
    rcases acceptsMem d.accept s with _ | _ <;> rfl
  rw [hflag]
  have hpart : (a ++ ">" ++ sigOf d (jsHead ((getObj es a).getD [])))
      ∈ (sortStrings (es.map (·.1))).map
        (fun a => a ++ ">" ++ sigOf d (jsHead ((getObj es a).getD []))) := by
    refine List.mem_map.2 ⟨a, ?_, rfl⟩
    exact (sortStrings_perm _).symm.mem_iff.1 (List.mem_map.2 ⟨(a, arr), getObj_mem harr, rfl⟩)
  have hle := gtCount_joinComma_mem hpart
  have heq : gtCount (a ++ ">" ++ sigOf d (jsHead ((getObj es a).getD [])))
      = gtCount a + 1 + gtCount (sigOf d (some dst)) := by
    rw [harr]
    simp only [Option.getD_some]
    rw [hd, gtCount_append, gtCount_append]
    rfl
  rw [heq] at hle
  have hbar : gtCount "|" = 0 := rfl
  omega

theorem rankM_bound (d : Automaton) (st : String) :
    rankM d st ≤ (minimizeAcyclicDFA d).states.length :=
  List.length_filter_le _ _

theorem min_hne {d : Automaton} {rank : String → Nat}
    (hwf : ∀ p ∈ d.transitions, ∀ q ∈ p.2, DestOk d.states (jsHead q.2))
    (hinner : ∀ p ∈ d.transitions, (p.2.map (·.1)).Nodup)
    (hne : ∀ p ∈ d.transitions, ∀ q ∈ p.2,
      ∃ dst, jsHead q.2 = some dst ∧ rank dst < rank p.1)
    (hbound : ∀ st, rank st ≤ d.states.length) :
    ∀ p ∈ (minimizeAcyclicDFA d).transitions, ∀ q ∈ p.2,
      ∃ rep, jsHead q.2 = some rep ∧ rankM d rep < rankM d p.1 := by
  intro p hp q hq
  have hp' : p ∈ ((repList d).map (·.2)).foldl (fun tr s =>
      setObj tr s (((getObj d.transitions s).getD []).map (fun e =>
        (e.1, [getRep d (jsHead e.2)])))) [] := hp
  rcases setObjFold_mem
      (fun s => ((getObj d.transitions s).getD []).map (fun e =>
        (e.1, [getRep d (jsHead e.2)])))
      ((repList d).map (·.2)) [] p hp' with h | ⟨h1, h2⟩
  · exact absurd h (List.not_mem_nil p)
  · have h2' : p.2 = ((getObj d.transitions p.1).getD []).map (fun e =>
        (e.1, [getRep d (jsHead e.2)])) := by
      rw [h2]
    rw [h2'] at hq
    obtain ⟨e, he, rfl⟩ := List.mem_map.1 hq
    rcases hget : getObj d.transitions p.1 with _ | es
    · rw [hget] at he
      exact absurd he (List.not_mem_nil e)
    · rw [hget] at he
      obtain ⟨dst, hjs, hdstm⟩ := hwf _ (getObj_mem hget) e he
      obtain ⟨rep, hgr, hsig, hrepm⟩ := getRep_spec hdstm
      refine ⟨rep, ?_, ?_⟩
      · show getRep d (jsHead e.2) = some rep
        rw [hjs]
        exact hgr
      · have harr : getObj es e.1 = some e.2 :=
          getObj_of_mem_nodup (hinner _ (getObj_mem hget)) he
        have hlt : gtCount (sigOf d (some dst)) < gtCount (sigOf d (some p.1)) :=
          gtCount_child_lt hne hbound (s := some p.1) hget harr hjs
        have hcnt : gtCount (sigOf d (some rep)) < gtCount (sigOf d (some p.1)) := by
          rw [hsig]
          exact hlt
        show rankM d rep < rankM d p.1
        unfold rankM
        refine filter_length_lt ?_ hrepm ?_ ?_
        · intro t ht hpt
          simp only [decide_eq_true_eq] at hpt ⊢
          omega
        · simp only [decide_eq_true_eq]
          exact hcnt
        · simp

theorem getObj_repconv (d : Automaton) (es : List (String × List StVal)) (a : String) :
    getObj (es.map (fun e => (e.1, [getRep d (jsHead e.2)]))) a
      = (getObj es a).map (fun arr => [getRep d (jsHead arr)]) := by
  induction es with
  | nil => rfl
  | cons e rest ih =>
      cases e with
      | mk c arr =>
          by_cases hc : c = a
          · simp [getObj, hc]
          · simp only [List.map_cons, getObj, if_neg hc]
            exact ih

theorem sig_min_eq {d : Automaton} {rank : String → Nat}
    (hwf : ∀ p ∈ d.transitions, ∀ q ∈ p.2, DestOk d.states (jsHead q.2))
    (hinner : ∀ p ∈ d.transitions, (p.2.map (·.1)).Nodup)
    (hne : ∀ p ∈ d.transitions, ∀ q ∈ p.2,
      ∃ dst, jsHead q.2 = some dst ∧ rank dst < rank p.1)
    (hbound : ∀ st, rank st ≤ d.states.length) :
    ∀ (r : String), r ∈ (repList d).map (·.2) →
      sigOf (minimizeAcyclicDFA d) (some r) = sigOf d (some r) := by
  have hneM := min_hne hwf hinner hne hbound
  have hboundM : ∀ st, rankM d st ≤ (minimizeAcyclicDFA d).states.length :=
    rankM_bound d
  suffices h : ∀ (k : Nat) (r : String), r ∈ (repList d).map (·.2) →
      gtCount (sigOf d (some r)) ≤ k →
      sigOf (minimizeAcyclicDFA d) (some r) = sigOf d (some r) by
    exact fun r hr => h (gtCount (sigOf d (some r))) r hr (le_refl _)
  intro k
  induction k with
  | zero =>
      intro r hr hk
      rw [sigOf_unfold hneM hboundM (some r), sigOf_unfold hne hbound (some r),
        show jsKey (some r) = r from rfl]
      have hming : getObj (minimizeAcyclicDFA d).transitions r
          = some (((getObj d.transitions r).getD []).map (fun e =>
            (e.1, [getRep d (jsHead e.2)]))) := minTrans_get hr
      rw [hming, min_accept_flag hr]
      rcases hget : getObj d.transitions r with _ | es
      · rfl
      · simp only [Option.getD_some]
        rw [show (es.map (fun e => (e.1, [getRep d (jsHead e.2)]))).map (·.1)
          = es.map (·.1) from by
            rw [List.map_map]
            exact List.map_congr_left (fun e he => rfl)]
        refine congrArg (fun t => (if acceptsMem d.accept (some r) then "1" else "0")
          ++ "|" ++ joinComma t) (List.map_congr_left ?_)
        intro a ha
        exfalso
        have hamem : a ∈ es.map (·.1) := (sortStrings_perm _).mem_iff.1 ha
        obtain ⟨arr, harr⟩ :=
          Option.isSome_iff_exists.1 (getObj_isSome_iff.2 hamem)
        obtain ⟨dst, hjs, hdstm⟩ := hwf _ (getObj_mem hget) _ (getObj_mem harr)
        have hcnt : gtCount (sigOf d (some dst)) < gtCount (sigOf d (some r)) :=
          gtCount_child_lt (s := some r) hne hbound hget harr hjs
        omega
  | succ k ih =>
      intro r hr hk
      rw [sigOf_unfold hneM hboundM (some r), sigOf_unfold hne hbound (some r),
        show jsKey (some r) = r from rfl]
      have hming : getObj (minimizeAcyclicDFA d).transitions r
          = some (((getObj d.transitions r).getD []).map (fun e =>
            (e.1, [getRep d (jsHead e.2)]))) := minTrans_get hr
      rw [hming, min_accept_flag hr]
      rcases hget : getObj d.transitions r with _ | es
      · rfl
      · simp only [Option.getD_some]
        rw [show (es.map (fun e => (e.1, [getRep d (jsHead e.2)]))).map (·.1)
          = es.map (·.1) from by
            rw [List.map_map]
            exact List.map_congr_left (fun e he => rfl)]
        refine congrArg (fun t => (if acceptsMem d.accept (some r) then "1" else "0")
          ++ "|" ++ joinComma t) (List.map_congr_left ?_)
        intro a ha
        have hamem : a ∈ es.map (·.1) := (sortStrings_perm _).mem_iff.1 ha
        obtain ⟨arr, harr⟩ :=
          Option.isSome_iff_exists.1 (getObj_isSome_iff.2 hamem)
        obtain ⟨dst, hjs, hdstm⟩ := hwf _ (getObj_mem hget) _ (getObj_mem harr)
        obtain ⟨rep, hgr, hsig, hrepm⟩ := getRep_spec hdstm
        have hdstd : jsHead ((getObj es a).getD []) = some dst := by
          rw [harr]
          exact hjs
        have hmdest : jsHead ((getObj (es.map (fun e =>
            (e.1, [getRep d (jsHead e.2)]))) a).getD []) = some rep := by
          rw [getObj_repconv, harr]
          show getRep d (jsHead arr) = some rep
          rw [hjs]
          exact hgr
        rw [hmdest, hdstd]
        have hcnt : gtCount (sigOf d (some dst)) < gtCount (sigOf d (some r)) :=
          gtCount_child_lt (s := some r) hne hbound hget harr hjs
        have hrep_cnt : gtCount (sigOf d (some rep)) ≤ k := by
          rw [hsig]
          omega
        rw [ih rep hrepm hrep_cnt, hsig]

theorem repFold_all_fresh (g : String → String) :
    ∀ (l : List String) (r : List (String × String)),
      (∀ s ∈ l, getObj r (g s) = none) →
      (∀ s1 ∈ l, ∀ s2 ∈ l, g s1 = g s2 → s1 = s2) →
      l.Nodup →
      l.foldl (fun r s =>
        if (getObj r (g s)).isSome then r else r ++ [(g s, s)]) r
        = r ++ l.map (fun s => (g s, s)) := by
  intro l
  induction l with
  | nil =>
      intro r _ _ _
      simp
  | cons s l ih =>
      intro r hfresh hinj hnd
      rw [List.foldl_cons]
      have h0 : getObj r (g s) = none := hfresh s (List.mem_cons_self s l)
      rw [if_neg (by rw [h0]; simp)]
      rw [List.nodup_cons] at hnd
      rw [ih (r ++ [(g s, s)]) ?_ ?_ hnd.2]
      · rw [List.append_assoc]
        rfl
      · intro t ht
        have hne : g s ≠ g t := by
          intro hgg
          exact hnd.1 ((hinj s (List.mem_cons_self s l) t
            (List.mem_cons_of_mem s ht) hgg) ▸ ht)
        rw [getObj_append_right _ (hfresh t (List.mem_cons_of_mem s ht))]
        simp [getObj, hne]
      · intro t1 h1 t2 h2
        exact hinj t1 (List.mem_cons_of_mem s h1) t2 (List.mem_cons_of_mem s h2)

theorem min_sig_inj {d : Automaton} {rank : String → Nat}
    (hwf : ∀ p ∈ d.transitions, ∀ q ∈ p.2, DestOk d.states (jsHead q.2))
    (hinner : ∀ p ∈ d.transitions, (p.2.map (·.1)).Nodup)
    (hne : ∀ p ∈ d.transitions, ∀ q ∈ p.2,
      ∃ dst, jsHead q.2 = some dst ∧ rank dst < rank p.1)
    (hbound : ∀ st, rank st ≤ d.states.length) :
    ∀ r1 ∈ (repList d).map (·.2), ∀ r2 ∈ (repList d).map (·.2),
      sigOf (minimizeAcyclicDFA d) (some r1)
        = sigOf (minimizeAcyclicDFA d) (some r2) → r1 = r2 := by
  intro r1 h1 r2 h2 heq
  rw [sig_min_eq hwf hinner hne hbound r1 h1,
    sig_min_eq hwf hinner hne hbound r2 h2] at heq
  obtain ⟨p1, hp1, hv1⟩ := List.mem_map.1 h1
  obtain ⟨p2, hp2, hv2⟩ := List.mem_map.1 h2
  have he1 := (repList_entries hp1).1
  have he2 := (repList_entries hp2).1
  have hkeys : p1.1 = p2.1 := by
    rw [he1, he2, hv1, hv2, heq]
  have hp1' : (p1.1, p1.2) ∈ repList d := hp1
  have hp2' : (p1.1, p2.2) ∈ repList d := by
    rw [hkeys]
    exact hp2
  have := entry_unique (repList_keys_nodup d) hp1' hp2'
  rw [← hv1, ← hv2, this]

theorem min_states_fixed {d : Automaton} {rank : String → Nat}
    (hwf : ∀ p ∈ d.transitions, ∀ q ∈ p.2, DestOk d.states (jsHead q.2))
    (hinner : ∀ p ∈ d.transitions, (p.2.map (·.1)).Nodup)
    (hne : ∀ p ∈ d.transitions, ∀ q ∈ p.2,
      ∃ dst, jsHead q.2 = some dst ∧ rank dst < rank p.1)
    (hbound : ∀ st, rank st ≤ d.states.length) :
    (minimizeAcyclicDFA (minimizeAcyclicDFA d)).states
      = (minimizeAcyclicDFA d).states := by
  have hflat : repList (minimizeAcyclicDFA d)
      = (minimizeAcyclicDFA d).states.map (fun s =>
          (sigOf (minimizeAcyclicDFA d) (some s), s)) := by
    have h := repFold_all_fresh (fun s => sigOf (minimizeAcyclicDFA d) (some s))
      (minimizeAcyclicDFA d).states []
      (fun s _ => rfl)
      (min_sig_inj hwf hinner hne hbound)
      (repList_values_nodup d)
    rw [show ([] : List (String × String)) ++ (minimizeAcyclicDFA d).states.map
      (fun s => (sigOf (minimizeAcyclicDFA d) (some s), s))
      = (minimizeAcyclicDFA d).states.map
        (fun s => (sigOf (minimizeAcyclicDFA d) (some s), s)) from rfl] at h
    exact h
  show (repList (minimizeAcyclicDFA d)).map (·.2) = (minimizeAcyclicDFA d).states
  rw [hflat, List.map_map]
  exact List.map_congr_left (fun s _ => rfl) |>.trans (List.map_id _)

/-- C8 counterexample: `exIdem` is an acyclic deterministic automaton
(its only cycle-free transition structure ends in `f` and `t`), yet the
first minimization returns 5 states and the second returns 4: the
`undefined` destination produced by the empty entry of `r1` is resolved
through the state literally named `"undefined"` in the first pass and
through a missing key in the second, changing the signature of `r1`. -/
theorem C8_minimize_idempotent_counterexample :
    (minimizeAcyclicDFA exIdem).states.length = 5 ∧
    (minimizeAcyclicDFA (minimizeAcyclicDFA exIdem)).states.length = 4 :=
  ⟨rfl, rfl⟩

/-- C8 (amended): minimization is idempotent — it even returns the same
state list — on every deterministic automaton that admits a topological
rank bounded by the number of states (acyclicity) and in which every
transition entry has duplicate-free symbols and a non-empty destination
array whose first element is a defined member of `states`. -/
theorem C8_minimize_idempotent_amended (d : Automaton) (rank : String → Nat)
    (hwf : ∀ p ∈ d.transitions, ∀ q ∈ p.2, DestOk d.states (jsHead q.2))
    (hinner : ∀ p ∈ d.transitions, (p.2.map (·.1)).Nodup)
    (hdet : Deterministic d)
    (hbound : ∀ st, rank st ≤ d.states.length)
    (hdec : ∀ p ∈ d.transitions, ∀ q ∈ p.2,
      ((jsHead q.2).map rank).getD 0 < rank p.1) :
    (minimizeAcyclicDFA (minimizeAcyclicDFA d)).states.length
      = (minimizeAcyclicDFA d).states.length := by
  have hne : ∀ p ∈ d.transitions, ∀ q ∈ p.2,
      ∃ dst, jsHead q.2 = some dst ∧ rank dst < rank p.1 := by
    intro p hp q hq
    obtain ⟨dst, hjs, hdstm⟩ := hwf p hp q hq
    refine ⟨dst, hjs, ?_⟩
    have h := hdec p hp q hq
    rw [hjs] at h
    exact h
  rw [min_states_fixed hwf hinner hne hbound]

/-- Witness for C8 at `exSigCollide` with the explicit topological rank
`exRank`. -/
theorem C8_minimize_idempotent_witness :
    (∀ p ∈ exSigCollide.transitions, ∀ q ∈ p.2,
      DestOk exSigCollide.states (jsHead q.2)) ∧
    (∀ p ∈ exSigCollide.transitions, (p.2.map (·.1)).Nodup) ∧
    Deterministic exSigCollide ∧
    (∀ st, exRank st ≤ exSigCollide.states.length) ∧
    (∀ p ∈ exSigCollide.transitions, ∀ q ∈ p.2,
      ((jsHead q.2).map exRank).getD 0 < exRank p.1) ∧
    (minimizeAcyclicDFA (minimizeAcyclicDFA exSigCollide)).states.length
      = (minimizeAcyclicDFA exSigCollide).states.length :=
  ⟨by decide, by decide, by unfold Deterministic; decide,
   by intro st; unfold exRank; split_ifs <;> decide,
   by decide,
   C8_minimize_idempotent_amended exSigCollide exRank (by decide) (by decide)
     (by unfold Deterministic; decide)
     (by intro st; unfold exRank; split_ifs <;> decide) (by decide)⟩

end FSM



